import Mathlib

/-!
Text layout and drawing of `render/font.c`.

A shallow embedding of `font_measure_string`, `font_height`,
`font_max_char_width` and `font_draw` of `src/render/font.c`, with the
library routines they call, followed by the properties of `font_draw`.

Conventions of the embedding.

* A C string is the list of its bytes before the terminating NUL; a byte is a
  `Nat` (a value in `1 .. 255` for a string the program can hold).
* `int` values are `Int`; C division of `int`s is `Int.tdiv` (truncation toward
  zero).  Signed overflow is undefined in C and is not modelled.
* `size_t l` is a `Nat`; it is only decremented when non-zero.
* An assignment to an `unsigned short` colour channel reduces modulo `2 ^ 16`.
* The drawing surface `XftDraw *d` is the list of the `XftDrawStringUtf8`
  calls made on it, in order.
* The glyph-extents service `XftTextExtentsUtf8` is a field of the font: any
  function from byte strings to extents.
-/

namespace Font

/-! ## Library types (Xlib, Xrender, Xft) -/

/-- The fields of `XGlyphInfo` that `font.c` reads. -/
structure XGlyphInfo where
  height : Int
  xOff : Int

/-- An `XftFont`: its metrics and the extents `XftTextExtentsUtf8` reports for
a byte string in this font. -/
structure XftFont where
  ascent : Int
  descent : Int
  max_advance_width : Int
  extents : List Nat → XGlyphInfo

/-- An `XRenderColor`: four `unsigned short` channels. -/
structure XRenderColor where
  red : Nat
  green : Nat
  blue : Nat
  alpha : Nat
deriving DecidableEq, Repr

/-- The `pixel` member of an `XftColor`: the display's black or white pixel,
or the pixel value of the request's colour. -/
inductive Pixel where
  | BlackPixel
  | WhitePixel
  | value (p : Nat)
deriving DecidableEq, Repr

/-- An `XftColor`. -/
structure XftColor where
  pixel : Pixel
  color : XRenderColor
deriving DecidableEq, Repr

/-! ## Types of the renderer -/

/-- Modelled from the spec: the struct `ObFont` of `font.h`, which is not among
the sources.  The fields are the ones `font.c` reads and writes: the backend
font and the two metrics cached by `measure_height` (the FontHandle of the
spec: resource, lineHeight, ellipsisAdvance). -/
structure ObFont where
  xftfont : XftFont
  height : Int
  elipses_length : Int

/-- Modelled from the spec: the struct `color_rgb` of `color.h`, which is not
among the sources: the foreground RGB channels and the backend pixel value
that `font_draw` reads. -/
structure color_rgb where
  r : Nat
  g : Nat
  b : Nat
  pixel : Nat

/-- Modelled from the spec: the justification enumeration of `render.h`, which
is not among the sources: one of Left, Right, Center, under the names of the
`switch` of `font_draw`. -/
inductive Justify where
  | Justify_Left
  | Justify_Right
  | Justify_Center
deriving DecidableEq, Repr

/-- Modelled from the spec: the struct `Rect` of `geom.h`, which is not among
the sources: the x, y, width and height of the drawing region. -/
structure Rect where
  x : Int
  y : Int
  width : Int
  height : Int

/-- Modelled from the spec: the struct `TextureText` of `render.h`, which is not
among the sources: the request `font_draw` receives, with the fields it reads
(the TextDrawRequest of the spec). -/
structure TextureText where
  font : ObFont
  justify : Justify
  shadow : Bool
  offset : Int
  tint : Int
  color : color_rgb
  string : List Nat

/-- One call `XftDrawStringUtf8(d, &c, font, x, y, str, strlen(str))`. -/
structure DrawCall where
  c : XftColor
  x : Int
  y : Int
  text : List Nat
deriving DecidableEq, Repr

/-! ## Library routines (glib) -/

/-- The bytes of an ASCII literal. -/
def ascii (s : String) : List Nat := s.toList.map Char.toNat

/-- The table `g_utf8_skip`: the length of the UTF-8 sequence a byte leads. -/
def g_utf8_skip (b : Nat) : Nat :=
  if b < 0xC0 then 1
  else if b < 0xE0 then 2
  else if b < 0xF0 then 3
  else if b < 0xF8 then 4
  else if b < 0xFC then 5
  else if b < 0xFE then 6
  else 1

/-- The loop of `g_utf8_strlen(p, -1)`: with `pending` bytes of the current
character still to skip, count the characters of the rest of the string.  Every
lead byte counts one character and skips `g_utf8_skip` bytes. -/
def utf8_count : Nat → List Nat → Nat
  | _, [] => 0
  | 0, b :: rest => 1 + utf8_count (g_utf8_skip b - 1) rest
  | k + 1, _ :: rest => utf8_count k rest

/-- The number of characters `g_utf8_strlen(p, -1)` reports. -/
def g_utf8_strlen (p : List Nat) : Nat := utf8_count 0 p

/-- The result of `g_string_erase(text, pos, len)` for `len >= 0`: the string is
left unchanged when the range is not inside it. -/
def g_string_erase (text : List Nat) (pos len : Nat) : List Nat :=
  if pos + len ≤ text.length then text.take pos ++ text.drop (pos + len) else text

/-- The result of `g_string_insert(text, pos, val)` for `pos >= 0`: the string
is left unchanged when `pos` is beyond its end. -/
def g_string_insert (text : List Nat) (pos : Nat) (val : List Nat) : List Nat :=
  if pos ≤ text.length then text.take pos ++ val ++ text.drop pos else text

/-! ## `font.c` -/

/-- The literal `ELIPSES`. -/
def ELIPSES : List Nat := [46, 46, 46]

/-- The macro `ELIPSES_LENGTH(font, shadow, offset)`. -/
def ELIPSES_LENGTH (font : ObFont) (shadow : Bool) (offset : Int) : Int :=
  font.elipses_length + (if shadow then offset else 0)

/-- The function `font_measure_string`. -/
def font_measure_string (f : ObFont) (str : List Nat) (shadow : Bool) (offset : Int) : Int :=
  (f.xftfont.extents str).xOff + (if shadow then offset else 0)

/-- The function `font_height`. -/
def font_height (f : ObFont) (shadow : Bool) (offset : Int) : Int :=
  f.height + (if shadow then offset else 0)

/-- The function `font_max_char_width`. -/
def font_max_char_width (f : ObFont) : Int := f.xftfont.max_advance_width

/-- The locals `text`, `l`, `m` and `shortened` of `font_draw`. -/
structure FitState where
  text : List Nat
  l : Nat
  m : Int
  shortened : Bool

/-- The loop `while (l && m > position->width)` of `font_draw`, entered with
the given `l`, `text`, `m` and `shortened`; the result is the state at exit.
Each iteration decrements `l`, which is the recursion. -/
def fitLoop (t : TextureText) (width : Int) : Nat → List Nat → Int → Bool → FitState
  | 0, text, m, shortened => ⟨text, 0, m, shortened⟩
  | l + 1, text, m, shortened =>
    if m > width then
      let text1 := g_string_erase text ((l + 1) / 2) 1
      let em := ELIPSES_LENGTH t.font t.shadow t.offset
      let shortened1 := if em > width then false else true
      let m1 := font_measure_string t.font text1 t.shadow t.offset + em
      fitLoop t width l text1 m1 shortened1
    else ⟨text, l + 1, m, shortened⟩

/-- The value `shortened` has at the end of every iteration of the loop. -/
def shortenedInLoop (t : TextureText) (width : Int) : Bool :=
  if ELIPSES_LENGTH t.font t.shadow t.offset > width then false else true

/-- The state of `font_draw` after the fit loop (lines 123-135). -/
def fitStage (t : TextureText) (position : Rect) : FitState :=
  fitLoop t position.width (g_utf8_strlen t.string) t.string
    (font_measure_string t.font t.string t.shadow t.offset) false

/-- The state of `font_draw` after `if (shortened) { ... }` (lines 136-139). -/
def elipsesStage (t : TextureText) (position : Rect) : FitState :=
  let s := fitStage t position
  if s.shortened then
    { s with text := g_string_insert s.text ((s.l + 1) / 2) ELIPSES, l := s.l + 3 }
  else s

/-- The vertical origin `y` (lines 115-121). -/
def originY (t : TextureText) (position : Rect) : Int :=
  position.y -
    Int.tdiv (2 * (t.font.xftfont.ascent + t.font.xftfont.descent) -
      (t.font.height + position.height) - 1) 2

/-- The horizontal origin `x` chosen by the `switch (t->justify)` for a measured
width `m` (lines 142-152). -/
def originX (t : TextureText) (position : Rect) (m : Int) : Int :=
  match t.justify with
  | Justify.Justify_Left => position.x
  | Justify.Justify_Right => position.x + (position.width - m)
  | Justify.Justify_Center => position.x + Int.tdiv (position.width - m) 2

/-- The value an `int` takes when stored in an `unsigned short`. -/
def toUShort (v : Int) : Nat := (v % 65536).toNat

/-- The colour of the shadow (lines 155-167). -/
def shadowColor (tint : Int) : XftColor :=
  if tint ≥ 0 then
    { pixel := Pixel.BlackPixel,
      color := { red := 0, green := 0, blue := 0,
                 alpha := toUShort (Int.tdiv (0xffff * tint) 100) } }
  else
    { pixel := Pixel.WhitePixel,
      color := { red := toUShort (Int.tdiv (0xffff * -tint) 100),
                 green := toUShort (Int.tdiv (0xffff * -tint) 100),
                 blue := toUShort (Int.tdiv (0xffff * -tint) 100),
                 alpha := toUShort (Int.tdiv (0xffff * -tint) 100) } }

/-- The colour of the text (lines 172-176). -/
def textColor (color : color_rgb) : XftColor :=
  { pixel := Pixel.value color.pixel,
    color := { red := (color.r ||| color.r <<< 8) % 65536,
               green := (color.g ||| color.g <<< 8) % 65536,
               blue := (color.b ||| color.b <<< 8) % 65536,
               alpha := (0xff ||| 0xff <<< 8) % 65536 } }

/-- The shadow call (lines 168-170) for origin `x`, `y` and final `text`. -/
def shadowCall (t : TextureText) (x y : Int) (text : List Nat) : DrawCall :=
  { c := shadowColor t.tint, x := x + t.offset,
    y := t.font.xftfont.ascent + y + t.offset, text := text }

/-- The text call (lines 178-180) for origin `x`, `y` and final `text`. -/
def textCall (t : TextureText) (x y : Int) (text : List Nat) : DrawCall :=
  { c := textColor t.color, x := x, y := t.font.xftfont.ascent + y, text := text }

/-- The function `font_draw`: the calls of `XftDrawStringUtf8` it makes on the
drawing surface, in order. -/
def font_draw (t : TextureText) (position : Rect) : List DrawCall :=
  let y := originY t position
  let s := elipsesStage t position
  if s.l = 0 then []
  else
    let x := originX t position s.m
    (if t.shadow then [shadowCall t x y s.text] else []) ++ [textCall t x y s.text]

/-! ## The fit loop, iteration by iteration -/

/-- The locals of `font_draw` when the loop is reached (lines 123-125 and the
initialiser of `shortened`). -/
def fitInit (t : TextureText) : FitState :=
  { text := t.string, l := g_utf8_strlen t.string,
    m := font_measure_string t.font t.string t.shadow t.offset, shortened := false }

/-- The condition `l && m > position->width` of the loop. -/
def fitGuard (width : Int) (s : FitState) : Bool :=
  decide (s.l ≠ 0) && decide (s.m > width)

/-- One iteration of the loop (lines 127-134) from the state `s`. -/
def fitBody (t : TextureText) (width : Int) (s : FitState) : FitState :=
  let text1 := g_string_erase s.text (s.l / 2) 1
  let em := ELIPSES_LENGTH t.font t.shadow t.offset
  { text := text1, l := s.l - 1,
    m := font_measure_string t.font text1 t.shadow t.offset + em,
    shortened := if em > width then false else true }

/-- The loop as a `while` with a bound on the number of iterations: `none` when
the bound is reached with the condition still true. -/
def fitWhile (t : TextureText) (width : Int) : Nat → FitState → Option FitState
  | 0, s => if fitGuard width s then none else some s
  | fuel + 1, s => if fitGuard width s then fitWhile t width fuel (fitBody t width s) else some s

/-- The number of iterations the loop makes when entered with the given `l`,
`text` and `m`. -/
def fitIterations (t : TextureText) (width : Int) : Nat → List Nat → Int → Nat
  | 0, _, _ => 0
  | l + 1, text, m =>
    if m > width then
      fitIterations t width l (g_string_erase text ((l + 1) / 2) 1)
        (font_measure_string t.font (g_string_erase text ((l + 1) / 2) 1) t.shadow t.offset
          + ELIPSES_LENGTH t.font t.shadow t.offset) + 1
    else 0

/-- The state after `j` iterations of the body on the request: the working
text after `j` removals, with its `l` and `m`. -/
def fitAfter (t : TextureText) (position : Rect) (j : Nat) : FitState :=
  (fitBody t position.width)^[j] (fitInit t)

/-- The number of iterations `font_draw` makes on a request. -/
def fitCount (t : TextureText) (position : Rect) : Nat :=
  fitIterations t position.width (g_utf8_strlen t.string) t.string
    (font_measure_string t.font t.string t.shadow t.offset)

/-! ## The removal step in the words of the spec -/

/-- The UTF-8 sequences of a string, split the way `g_utf8_strlen` counts them:
with `pending` bytes of the current character still to come, the bytes that
complete it and the characters after it. -/
def utf8_split : Nat → List Nat → List Nat × List (List Nat)
  | _, [] => ([], [])
  | 0, b :: rest => ([], (b :: (utf8_split (g_utf8_skip b - 1) rest).1)
      :: (utf8_split (g_utf8_skip b - 1) rest).2)
  | k + 1, b :: rest => (b :: (utf8_split k rest).1, (utf8_split k rest).2)

/-- The characters of a string, each the list of its bytes. -/
def utf8_chars (p : List Nat) : List (List Nat) := (utf8_split 0 p).2

/-- The removal step as the spec words it: remove exactly one codepoint, the
one at codepoint index `k`, from the working text. -/
def removeCodepointSpec (text : List Nat) (k : Nat) : List Nat :=
  ((utf8_chars text).eraseIdx k).flatten

/-! ## Test fixtures -/

/-- A backend font whose extents are additive over the bytes of the string:
`adv b` is the advance of byte `b`. -/
def stubXft (adv : Nat → Int) : XftFont :=
  { ascent := 10, descent := 3, max_advance_width := 10,
    extents := fun str => { height := 13, xOff := (str.map adv).sum } }

/-- The fixed-width stub font: 10px for every character, with the given cached
ellipsis advance. -/
def fixedFont (elipses : Int) : ObFont :=
  { xftfont := stubXft (fun _ => 10), height := 13, elipses_length := elipses }

/-- A request in a font with an unshadowed, left-justified white text. -/
def plainText (font : ObFont) (string : List Nat) : TextureText :=
  { font := font, justify := Justify.Justify_Left, shadow := false, offset := 0,
    tint := 0, color := { r := 255, g := 255, b := 255, pixel := 0 }, string := string }

/-- A rectangle of the given width at the origin, 20 pixels high. -/
def rectOfWidth (width : Int) : Rect := { x := 0, y := 0, width := width, height := 20 }

/-- The advance of a byte in a font that gives every character 10px, except
the full stop, which gets 1px: a continuation byte of a UTF-8 sequence adds
nothing, so a valid string measures the sum of the advances of its
characters. -/
def codepointAdvance (b : Nat) : Int :=
  if 0x80 ≤ b ∧ b < 0xC0 then 0 else if b = 46 then 1 else 10

/-- The font of `codepointAdvance`; its cached ellipsis advance is the measure
of `ELIPSES`, 3px. -/
def codepointFont : ObFont :=
  { xftfont := stubXft codepointAdvance, height := 13, elipses_length := 3 }

/-- A shadowed request (offset 1) for the string "aéé", three characters and
five bytes, in the given font. -/
def accentedIn (f : ObFont) (justify : Justify) (tint : Int) (color : color_rgb) :
    TextureText :=
  { font := f, justify := justify, shadow := true, offset := 1, tint := tint,
    color := color, string := [0x61, 0xC3, 0xA9, 0xC3, 0xA9] }

/-- The shadowed request for "aéé" in the font of `codepointAdvance`. -/
def accentedText : TextureText :=
  accentedIn codepointFont Justify.Justify_Left 50 { r := 255, g := 255, b := 255, pixel := 0 }

/-- A shadowed (offset 3), centred request for "A" in the fixed-width font with
a 7px ellipsis. -/
def centredShadowText : TextureText :=
  { font := fixedFont 7, justify := Justify.Justify_Center, shadow := true, offset := 3,
    tint := -40, color := { r := 18, g := 52, b := 255, pixel := 7 },
    string := ascii "A" }

/-- A right-justified request for "A" in the fixed-width font with a shadow
offset of -20 (a shadow up and to the left). -/
def negativeShadowText : TextureText :=
  { font := fixedFont 5, justify := Justify.Justify_Right, shadow := true, offset := -20,
    tint := 50, color := { r := 0, g := 0, b := 0, pixel := 0 }, string := ascii "A" }

/-- The advance of a byte in a font that gives every character 10px, except
the full stop, which gets 20px; a continuation byte of a UTF-8 sequence adds
nothing. -/
def wideDotAdvance (b : Nat) : Int :=
  if 0x80 ≤ b ∧ b < 0xC0 then 0 else if b = 46 then 20 else 10

/-- The font of `wideDotAdvance`; its cached ellipsis advance is the measure of
`ELIPSES`, 60px. -/
def wideDotFont : ObFont :=
  { xftfont := stubXft wideDotAdvance, height := 13, elipses_length := 60 }

/-- The shadowed request for "aéé" in the font of `wideDotAdvance`. -/
def accentedWideDotText : TextureText :=
  accentedIn wideDotFont Justify.Justify_Left 50 { r := 255, g := 255, b := 255, pixel := 0 }

/-! ## Lemmas on the library routines -/

theorem g_utf8_strlen_nil : g_utf8_strlen [] = 0 := rfl

theorem g_utf8_strlen_cons (b : Nat) (rest : List Nat) :
    g_utf8_strlen (b :: rest) = 1 + utf8_count (g_utf8_skip b - 1) rest := rfl

theorem g_utf8_strlen_pos {p : List Nat} (h : p ≠ []) : 0 < g_utf8_strlen p := by
  cases p with
  | nil => exact absurd rfl h
  | cons b rest => rw [g_utf8_strlen_cons]; omega

theorem g_string_erase_sublist (text : List Nat) (pos len : Nat) :
    List.Sublist (g_string_erase text pos len) text := by
  unfold g_string_erase
  split
  · have h : List.Sublist (text.take pos ++ text.drop (pos + len))
        (text.take pos ++ text.drop pos) :=
      List.Sublist.append (List.Sublist.refl _)
        (by rw [← List.drop_drop]; exact List.drop_sublist _ _)
    rwa [List.take_append_drop] at h
  · exact List.Sublist.refl _

/-! ## Lemmas on the fit loop -/

theorem fitLoop_zero (t : TextureText) (width : Int) (text : List Nat) (m : Int)
    (shortened : Bool) : fitLoop t width 0 text m shortened = ⟨text, 0, m, shortened⟩ := rfl

theorem fitLoop_fits (t : TextureText) (width : Int) (l : Nat) (text : List Nat) (m : Int)
    (shortened : Bool) (h : m ≤ width) :
    fitLoop t width l text m shortened = ⟨text, l, m, shortened⟩ := by
  cases l with
  | zero => rfl
  | succ l => simp [fitLoop, not_lt.mpr h]

theorem fitLoop_step (t : TextureText) (width : Int) (l : Nat) (text : List Nat) (m : Int)
    (shortened : Bool) (h : m > width) :
    fitLoop t width (l + 1) text m shortened =
      fitLoop t width l (g_string_erase text ((l + 1) / 2) 1)
        (font_measure_string t.font (g_string_erase text ((l + 1) / 2) 1) t.shadow t.offset
          + ELIPSES_LENGTH t.font t.shadow t.offset)
        (shortenedInLoop t width) := by
  simp [fitLoop, h, shortenedInLoop]

/-- Once set by an iteration, `shortened` keeps its value to the end. -/
theorem fitLoop_shortened_stable (t : TextureText) (width : Int) (l : Nat) :
    ∀ (text : List Nat) (m : Int),
      (fitLoop t width l text m (shortenedInLoop t width)).shortened
        = shortenedInLoop t width := by
  induction l with
  | zero => intro text m; rfl
  | succ l ih =>
    intro text m
    by_cases h : m > width
    · rw [fitLoop_step t width l text m _ h]; exact ih _ _
    · rw [fitLoop_fits t width (l + 1) text m _ (not_lt.mp h)]

/-- After at least one iteration, `shortened` tells whether the ellipsis
footprint fits the rectangle. -/
theorem fitLoop_shortened_of_entered (t : TextureText) (width : Int) (l : Nat)
    (text : List Nat) (m : Int) (shortened : Bool) (hl : 0 < l) (hm : m > width) :
    (fitLoop t width l text m shortened).shortened = shortenedInLoop t width := by
  obtain ⟨k, rfl⟩ : ∃ k, l = k + 1 := ⟨l - 1, by omega⟩
  rw [fitLoop_step t width k text m _ hm]
  exact fitLoop_shortened_stable t width k _ _

/-- A loop entered with `shortened` false in a rectangle narrower than the
ellipsis footprint ends with `shortened` false. -/
theorem fitLoop_not_shortened (t : TextureText) (width : Int)
    (hem : ELIPSES_LENGTH t.font t.shadow t.offset > width) (l : Nat) (text : List Nat)
    (m : Int) : (fitLoop t width l text m false).shortened = false := by
  have hs : shortenedInLoop t width = false := by simp [shortenedInLoop, hem]
  by_cases h : 0 < l ∧ m > width
  · rw [fitLoop_shortened_of_entered t width l text m false h.1 h.2, hs]
  · rcases Nat.eq_zero_or_pos l with h0 | h0
    · subst h0; rfl
    · have : m ≤ width := not_lt.mp (fun hm => h ⟨h0, hm⟩)
      rw [fitLoop_fits t width l text m false this]

/-- The loop only erases: its text is a subsequence of the text it started
from. -/
theorem fitLoop_text_sublist (t : TextureText) (width : Int) (l : Nat) :
    ∀ (text : List Nat) (m : Int) (shortened : Bool),
      List.Sublist (fitLoop t width l text m shortened).text text := by
  induction l with
  | zero => intro text m shortened; exact List.Sublist.refl _
  | succ l ih =>
    intro text m shortened
    by_cases h : m > width
    · rw [fitLoop_step t width l text m _ h]
      exact (ih _ _ _).trans (g_string_erase_sublist _ _ _)
    · rw [fitLoop_fits t width (l + 1) text m _ (not_lt.mp h)]

/-- With non-negative extents and shadow offset, a loop in a rectangle narrower
than the ellipsis footprint runs until `l` is zero. -/
theorem fitLoop_exhausts (t : TextureText) (width : Int)
    (hx : ∀ str, 0 ≤ (t.font.xftfont.extents str).xOff)
    (ho : t.shadow = true → 0 ≤ t.offset)
    (hem : ELIPSES_LENGTH t.font t.shadow t.offset > width) (l : Nat) :
    ∀ (text : List Nat) (m : Int) (shortened : Bool), m > width →
      (fitLoop t width l text m shortened).l = 0 := by
  induction l with
  | zero => intro text m shortened _; rfl
  | succ l ih =>
    intro text m shortened h
    rw [fitLoop_step t width l text m _ h]
    apply ih
    have h1 := hx (g_string_erase text ((l + 1) / 2) 1)
    have h2 : 0 ≤ (if t.shadow then t.offset else 0) := by
      split
      · next hs => exact ho hs
      · exact le_refl _
    unfold font_measure_string
    omega

/-- The state after the ellipsis stage keeps the measured width of the loop. -/
theorem elipsesStage_m (t : TextureText) (position : Rect) :
    (elipsesStage t position).m = (fitStage t position).m := by
  unfold elipsesStage
  simp only
  split <;> rfl

/-- The calls of `font_draw` when it draws. -/
theorem font_draw_of_pos (t : TextureText) (position : Rect)
    (h : (elipsesStage t position).l ≠ 0) :
    font_draw t position =
      (if t.shadow then
        [shadowCall t (originX t position (elipsesStage t position).m) (originY t position)
          (elipsesStage t position).text] else []) ++
      [textCall t (originX t position (elipsesStage t position).m) (originY t position)
        (elipsesStage t position).text] := by
  simp [font_draw, h]

theorem font_draw_of_zero (t : TextureText) (position : Rect)
    (h : (elipsesStage t position).l = 0) : font_draw t position = [] := by
  simp [font_draw, h]

theorem font_draw_ne_nil_iff (t : TextureText) (position : Rect) :
    font_draw t position ≠ [] ↔ (elipsesStage t position).l ≠ 0 := by
  constructor
  · intro h h0; exact h (font_draw_of_zero t position h0)
  · intro h; rw [font_draw_of_pos t position h]; simp

/-- The loop stops with `l` zero or with a measured width that fits. -/
theorem fitLoop_exit (t : TextureText) (width : Int) (l : Nat) :
    ∀ (text : List Nat) (m : Int) (shortened : Bool),
      (fitLoop t width l text m shortened).l = 0 ∨
        (fitLoop t width l text m shortened).m ≤ width := by
  induction l with
  | zero => intro text m shortened; exact Or.inl rfl
  | succ l ih =>
    intro text m shortened
    by_cases h : m > width
    · rw [fitLoop_step t width l text m _ h]; exact ih _ _ _
    · rw [fitLoop_fits t width (l + 1) text m _ (not_lt.mp h)]
      exact Or.inr (not_lt.mp h)

/-- A loop entered with the measure of its text plus the ellipsis footprint
ends with the measure of its final text plus the ellipsis footprint. -/
theorem fitLoop_m_stable (t : TextureText) (width : Int) (l : Nat) :
    ∀ (text : List Nat) (shortened : Bool),
      (fitLoop t width l text
          (font_measure_string t.font text t.shadow t.offset
            + ELIPSES_LENGTH t.font t.shadow t.offset) shortened).m
        = font_measure_string t.font
            (fitLoop t width l text
              (font_measure_string t.font text t.shadow t.offset
                + ELIPSES_LENGTH t.font t.shadow t.offset) shortened).text
            t.shadow t.offset
          + ELIPSES_LENGTH t.font t.shadow t.offset := by
  induction l with
  | zero => intro text shortened; rfl
  | succ l ih =>
    intro text shortened
    by_cases h : font_measure_string t.font text t.shadow t.offset
        + ELIPSES_LENGTH t.font t.shadow t.offset > width
    · rw [fitLoop_step t width l text _ _ h]; exact ih _ _
    · rw [fitLoop_fits t width (l + 1) text _ _ (not_lt.mp h)]

/-- After at least one iteration, `m` is the measure of the final text (shadow
offset included) plus the ellipsis footprint. -/
theorem fitLoop_m_of_entered (t : TextureText) (width : Int) (l : Nat)
    (text : List Nat) (m : Int) (shortened : Bool) (hl : 0 < l) (hm : m > width) :
    (fitLoop t width l text m shortened).m
      = font_measure_string t.font (fitLoop t width l text m shortened).text
          t.shadow t.offset
        + ELIPSES_LENGTH t.font t.shadow t.offset := by
  obtain ⟨k, rfl⟩ : ∃ k, l = k + 1 := ⟨l - 1, by omega⟩
  rw [fitLoop_step t width k text m _ hm]
  exact fitLoop_m_stable t width k _ _

theorem g_string_erase_length (text : List Nat) (pos len : Nat)
    (h : pos + len ≤ text.length) :
    (g_string_erase text pos len).length = text.length - len := by
  simp [g_string_erase, h]
  omega

/-- The loop erases one byte for every character it counts off: the excess of
the byte length over `l` is the same at exit as at entry. -/
theorem fitLoop_length (t : TextureText) (width : Int) (l : Nat) :
    ∀ (text : List Nat) (m : Int) (shortened : Bool), l ≤ text.length →
      (fitLoop t width l text m shortened).text.length + l
        = text.length + (fitLoop t width l text m shortened).l := by
  induction l with
  | zero => intro text m shortened _; rfl
  | succ l ih =>
    intro text m shortened hl
    by_cases h : m > width
    · rw [fitLoop_step t width l text m _ h]
      have hlen := g_string_erase_length text ((l + 1) / 2) 1 (by omega)
      have := ih (g_string_erase text ((l + 1) / 2) 1)
        (font_measure_string t.font (g_string_erase text ((l + 1) / 2) 1) t.shadow t.offset
          + ELIPSES_LENGTH t.font t.shadow t.offset)
        (shortenedInLoop t width) (by omega)
      omega
    · rw [fitLoop_fits t width (l + 1) text m _ (not_lt.mp h)]

/-- A string of single-byte characters has as many characters as bytes. -/
theorem g_utf8_strlen_single_byte (p : List Nat) (h : ∀ b ∈ p, b < 0x80) :
    g_utf8_strlen p = p.length := by
  unfold g_utf8_strlen
  induction p with
  | nil => rfl
  | cons b rest ih =>
    have hb : b < 0x80 := h b (List.mem_cons_self _ _)
    have hs : g_utf8_skip b = 1 := by
      unfold g_utf8_skip
      rw [if_pos (by omega)]
    rw [utf8_count, hs, ih (fun x hx => h x (List.mem_cons_of_mem _ hx)), List.length_cons]
    omega

/-- Every call of `font_draw` carries the text of the ellipsis stage. -/
theorem font_draw_text (t : TextureText) (position : Rect) (d : DrawCall)
    (hd : d ∈ font_draw t position) : d.text = (elipsesStage t position).text := by
  by_cases hl : (elipsesStage t position).l = 0
  · rw [font_draw_of_zero t position hl] at hd
    exact absurd hd (List.not_mem_nil d)
  · rw [font_draw_of_pos t position hl] at hd
    by_cases hsh : t.shadow = true
    · simp [hsh, shadowCall, textCall] at hd
      rcases hd with rfl | rfl <;> rfl
    · simp [hsh, textCall] at hd
      subst hd; rfl

/-- On a string of single-byte characters that needs truncation, with extents
that are non-negative and additive over single-byte strings, a non-negative
shadow offset and the ellipsis advance cached by `measure_height`, every call
of `font_draw` carries a text whose measure plus the shadow offset is within
the rectangle width. -/
theorem single_byte_draw_within_width (t : TextureText) (position : Rect)
    (hascii : ∀ b ∈ t.string, b < 0x80)
    (hadd : ∀ a b : List Nat, (∀ x ∈ a, x < 0x80) → (∀ x ∈ b, x < 0x80) →
      (t.font.xftfont.extents (a ++ b)).xOff
        = (t.font.xftfont.extents a).xOff + (t.font.xftfont.extents b).xOff)
    (hx : ∀ str, 0 ≤ (t.font.xftfont.extents str).xOff)
    (ho : t.shadow = true → 0 ≤ t.offset)
    (hel : t.font.elipses_length = (t.font.xftfont.extents ELIPSES).xOff)
    (hm : font_measure_string t.font t.string t.shadow t.offset > position.width) :
    ∀ d ∈ font_draw t position,
      (t.font.xftfont.extents d.text).xOff + (if t.shadow then t.offset else 0)
        ≤ position.width := by
  intro d hd
  have hoff : 0 ≤ (if t.shadow then t.offset else 0) := by
    split
    · next hs => exact ho hs
    · exact le_refl _
  by_cases hem : ELIPSES_LENGTH t.font t.shadow t.offset > position.width
  · -- the loop runs to `l = 0` and nothing is drawn
    have hs : (fitStage t position).shortened = false :=
      fitLoop_not_shortened t position.width hem _ _ _
    have h0 : (elipsesStage t position).l = 0 := by
      have he : elipsesStage t position = fitStage t position := by
        simp [elipsesStage, hs]
      rw [he]
      exact fitLoop_exhausts t position.width hx ho hem _ _ _ _ hm
    rw [font_draw_of_zero t position h0] at hd
    exact absurd hd (List.not_mem_nil d)
  · have hem1 : ELIPSES_LENGTH t.font t.shadow t.offset ≤ position.width := not_lt.mp hem
    rw [font_draw_text t position d hd]
    have hlen0 : g_utf8_strlen t.string = t.string.length :=
      g_utf8_strlen_single_byte t.string hascii
    rcases Nat.eq_zero_or_pos (g_utf8_strlen t.string) with hz | hpos
    · -- an empty string is not drawn
      have h0 : (elipsesStage t position).l = 0 := by
        simp [elipsesStage, fitStage, hz, fitLoop_zero]
      rw [font_draw_of_zero t position h0] at hd
      exact absurd hd (List.not_mem_nil d)
    · have hsh : (fitStage t position).shortened = true := by
        have := fitLoop_shortened_of_entered t position.width _ t.string _ false hpos hm
        unfold fitStage
        rw [this]
        simp [shortenedInLoop, hem]
      have hlen : (fitStage t position).text.length = (fitStage t position).l := by
        have := fitLoop_length t position.width (g_utf8_strlen t.string) t.string
          (font_measure_string t.font t.string t.shadow t.offset) false (by omega)
        unfold fitStage
        omega
      have hmeq : (fitStage t position).m
          = font_measure_string t.font (fitStage t position).text t.shadow t.offset
            + ELIPSES_LENGTH t.font t.shadow t.offset :=
        fitLoop_m_of_entered t position.width _ t.string _ false hpos hm
      have hsub : List.Sublist (fitStage t position).text t.string :=
        fitLoop_text_sublist t position.width _ _ _ _
      have hta : ∀ x ∈ (fitStage t position).text, x < 0x80 :=
        fun x hx => hascii x (hsub.subset hx)
      have htext : (elipsesStage t position).text
          = (fitStage t position).text.take (((fitStage t position).l + 1) / 2)
            ++ ELIPSES
            ++ (fitStage t position).text.drop (((fitStage t position).l + 1) / 2) := by
        have hb : ((fitStage t position).l + 1) / 2 ≤ (fitStage t position).text.length := by
          omega
        simp [elipsesStage, hsh, g_string_insert, hb]
      have hEa : ∀ x ∈ ELIPSES, x < 0x80 := by decide
      have htk : ∀ x ∈ (fitStage t position).text.take (((fitStage t position).l + 1) / 2),
          x < 0x80 := fun x hx => hta x (List.mem_of_mem_take hx)
      have hdr : ∀ x ∈ (fitStage t position).text.drop (((fitStage t position).l + 1) / 2),
          x < 0x80 := fun x hx => hta x (List.mem_of_mem_drop hx)
      have hsplit : (t.font.xftfont.extents (fitStage t position).text).xOff
          = (t.font.xftfont.extents
              ((fitStage t position).text.take (((fitStage t position).l + 1) / 2))).xOff
            + (t.font.xftfont.extents
              ((fitStage t position).text.drop (((fitStage t position).l + 1) / 2))).xOff := by
        rw [← hadd _ _ htk hdr, List.take_append_drop]
      have hfinal : (t.font.xftfont.extents (elipsesStage t position).text).xOff
          = (t.font.xftfont.extents (fitStage t position).text).xOff
            + t.font.elipses_length := by
        rw [htext, hadd _ _ (by
              intro x hx
              rcases List.mem_append.mp hx with h | h
              · exact htk x h
              · exact hEa x h) hdr,
          hadd _ _ htk hEa, hsplit, hel]
        omega
      rw [hfinal]
      rcases fitLoop_exit t position.width (g_utf8_strlen t.string) t.string
          (font_measure_string t.font t.string t.shadow t.offset) false with hl0 | hfit
      · -- the text is empty: only the ellipsis is drawn
        have hnil : (fitStage t position).text = [] := by
          apply List.eq_nil_of_length_eq_zero
          rw [hlen]; exact hl0
        have hxnil : (t.font.xftfont.extents []).xOff = 0 := by
          have := hadd [] [] (by simp) (by simp)
          simp only [List.append_nil] at this
          omega
        rw [hnil, hxnil]
        unfold ELIPSES_LENGTH at hem1
        omega
      · have hfit1 : (fitStage t position).m ≤ position.width := hfit
        rw [hmeq] at hfit1
        unfold font_measure_string ELIPSES_LENGTH at hfit1
        omega

/-- The hypotheses of `single_byte_draw_within_width` hold for "HELLO WORLD" in
the fixed-width font with its 30px ellipsis and a 50px rectangle: the call
carries a text of at most 50px. -/
theorem single_byte_draw_within_width_hello :
    ∀ d ∈ font_draw (plainText (fixedFont 30) (ascii "HELLO WORLD")) (rectOfWidth 50),
      ((fixedFont 30).xftfont.extents d.text).xOff + 0 ≤ 50 :=
  single_byte_draw_within_width (plainText (fixedFont 30) (ascii "HELLO WORLD"))
    (rectOfWidth 50) (by decide)
    (fun a b _ _ => by
      show ((a ++ b).map (fun _ => (10 : Int))).sum
        = (a.map (fun _ => (10 : Int))).sum + (b.map (fun _ => (10 : Int))).sum
      rw [List.map_append, List.sum_append])
    (fun str => List.sum_nonneg (by
      intro x hx
      obtain ⟨_, _, rfl⟩ := List.mem_map.mp hx
      decide))
    (by decide) (by decide) (by decide)

/-- The shadowed request for "aéé" in a 4px rectangle, in any font with
non-negative extents that measures "aéé" 30px, "aé" 20px, "é" 10px and caches a
3px ellipsis: whatever the font reports for the byte strings that are not
valid UTF-8, the loop runs until `l` is zero and leaves the two bytes of "é",
and `font_draw` draws "...é". -/
theorem multibyte_draw_any_backend (f : ObFont) (justify : Justify) (tint : Int)
    (color : color_rgb)
    (hx : ∀ str, 0 ≤ (f.xftfont.extents str).xOff)
    (hel : f.elipses_length = 3)
    (h3 : (f.xftfont.extents [0x61, 0xC3, 0xA9, 0xC3, 0xA9]).xOff = 30)
    (h2 : (f.xftfont.extents [0x61, 0xC3, 0xA9]).xOff = 20)
    (h1 : (f.xftfont.extents [0xC3, 0xA9]).xOff = 10) :
    (fitStage (accentedIn f justify tint color) (rectOfWidth 4)).l = 0 ∧
      font_draw (accentedIn f justify tint color) (rectOfWidth 4) ≠ [] ∧
      ∀ d ∈ font_draw (accentedIn f justify tint color) (rectOfWidth 4),
        d.text = [46, 46, 46, 0xC3, 0xA9] := by
  have hlen : g_utf8_strlen [0x61, 0xC3, 0xA9, 0xC3, 0xA9] = 3 := by decide
  have e1 : g_string_erase [0x61, 0xC3, 0xA9, 0xC3, 0xA9] ((2 + 1) / 2) 1
      = [0x61, 0xA9, 0xC3, 0xA9] := by decide
  have e2 : g_string_erase [0x61, 0xA9, 0xC3, 0xA9] ((1 + 1) / 2) 1 = [0x61, 0xC3, 0xA9] := by
    decide
  have e3 : g_string_erase [0x61, 0xC3, 0xA9] ((0 + 1) / 2) 1 = [0xC3, 0xA9] := by decide
  have hq := hx [0x61, 0xA9, 0xC3, 0xA9]
  have hw : (rectOfWidth 4).width = 4 := rfl
  have hfit : fitStage (accentedIn f justify tint color) (rectOfWidth 4)
      = ⟨[0xC3, 0xA9], 0, 10 + 1 + (3 + 1), true⟩ := by
    unfold fitStage
    simp only [accentedIn, hlen, hw]
    rw [fitLoop_step _ _ _ _ _ _ (by simp [font_measure_string, h3])]
    simp only [e1]
    rw [fitLoop_step _ _ _ _ _ _ (by
      simp only [font_measure_string, ELIPSES_LENGTH, hel, if_true]; omega)]
    simp only [e2]
    rw [fitLoop_step _ _ _ _ _ _ (by
      simp only [font_measure_string, ELIPSES_LENGTH, hel, h2, if_true]; omega)]
    simp only [e3, fitLoop_zero, font_measure_string, ELIPSES_LENGTH, hel, h1, if_true,
      shortenedInLoop]
    rfl
  have hel3 : elipsesStage (accentedIn f justify tint color) (rectOfWidth 4)
      = ⟨[46, 46, 46, 0xC3, 0xA9], 3, 10 + 1 + (3 + 1), true⟩ := by
    unfold elipsesStage
    rw [hfit]
    rfl
  refine ⟨by rw [hfit], ?_, ?_⟩
  · rw [font_draw_ne_nil_iff, hel3]
    decide
  · intro d hd
    rw [font_draw_text _ _ d hd, hel3]

/-- The hypotheses of `multibyte_draw_any_backend` hold for the font of
`codepointAdvance`. -/
theorem multibyte_draw_any_backend_codepointFont :
    font_draw accentedText (rectOfWidth 4) ≠ [] ∧
      ∀ d ∈ font_draw accentedText (rectOfWidth 4), d.text = [46, 46, 46, 0xC3, 0xA9] :=
  (multibyte_draw_any_backend codepointFont Justify.Justify_Left 50
    { r := 255, g := 255, b := 255, pixel := 0 }
    (fun str => List.sum_nonneg (by
      intro x hx
      obtain ⟨b, _, rfl⟩ := List.mem_map.mp hx
      unfold codepointAdvance
      split
      · exact le_refl _
      · split <;> decide))
    rfl (by decide) (by decide) (by decide)).2

/-- An 8-bit channel `c` expands to `c | c << 8`, which is `257 * c` and fits
an `unsigned short`. -/
theorem channel_expand (c : Nat) (hc : c ≤ 255) :
    (c ||| c <<< 8) % 65536 = c ||| c <<< 8 ∧ c ||| c <<< 8 = 257 * c := by
  have h1 : c ||| c <<< 8 = 257 * c := by
    have h := Nat.mul_add_lt_is_or (show c < 2 ^ 8 by omega) c
    rw [Nat.shiftLeft_eq, Nat.lor_comm, Nat.mul_comm c (2 ^ 8), ← h]
    omega
  refine ⟨?_, h1⟩
  rw [h1]
  exact Nat.mod_eq_of_lt (by omega)

/-- The last call of `font_draw`, when it draws, is the text call. -/
theorem font_draw_getLast (t : TextureText) (position : Rect) (d : DrawCall)
    (hd : (font_draw t position).getLast? = some d) :
    d = textCall t (originX t position (elipsesStage t position).m) (originY t position)
      (elipsesStage t position).text := by
  by_cases hl : (elipsesStage t position).l = 0
  · rw [font_draw_of_zero t position hl] at hd
    simp at hd
  · rw [font_draw_of_pos t position hl] at hd
    simp at hd
    exact hd.symm

/-! ## Properties of `font_draw` -/

/-- C1: a string that already fits (measured width plus the shadow offset when
the shadow is on is at most the rectangle width) goes through the fit stage
unchanged: no byte is removed, `shortened` stays false, no ellipsis is
inserted, and when the string is non-empty `font_draw` draws, every call
carrying exactly the string. -/
theorem fitting_string_drawn_unmodified (t : TextureText) (position : Rect)
    (hfit : (t.font.xftfont.extents t.string).xOff + (if t.shadow then t.offset else 0)
      ≤ position.width) :
    fitStage t position =
        ⟨t.string, g_utf8_strlen t.string,
          font_measure_string t.font t.string t.shadow t.offset, false⟩ ∧
      (elipsesStage t position).shortened = false ∧
      (elipsesStage t position).text = t.string ∧
      (t.string ≠ [] →
        font_draw t position ≠ [] ∧ ∀ d ∈ font_draw t position, d.text = t.string) := by
  have hs : fitStage t position =
      ⟨t.string, g_utf8_strlen t.string,
        font_measure_string t.font t.string t.shadow t.offset, false⟩ :=
    fitLoop_fits t position.width _ _ _ _ hfit
  have he : elipsesStage t position = fitStage t position := by
    simp [elipsesStage, hs]
  refine ⟨hs, by rw [he, hs], by rw [he, hs], ?_⟩
  intro hne
  have hl : (elipsesStage t position).l ≠ 0 := by
    rw [he, hs]; exact (g_utf8_strlen_pos hne).ne.symm
  refine ⟨(font_draw_ne_nil_iff t position).mpr hl, ?_⟩
  intro d hd
  rw [font_draw_text t position d hd, he, hs]

/-- C1 at "AB" (20px) in a 50px rectangle. -/
theorem fitting_string_drawn_unmodified_witness :
    (elipsesStage (plainText (fixedFont 20) (ascii "AB")) (rectOfWidth 50)).text = ascii "AB" :=
  (fitting_string_drawn_unmodified (plainText (fixedFont 20) (ascii "AB")) (rectOfWidth 50)
    (by decide)).2.2.1

/-- C2: for the three-character string "aéé" (five bytes) in a 4px rectangle,
under a measurer that adds up non-negative advances of characters (10px each,
1px for a full stop, ellipsis 3px) and a shadow offset of 1: the string needs
truncation, the loop erases the bytes at indices 1, 1 and 0, which leaves the
two bytes of "é" when `l` reaches zero, and `font_draw` draws "...é" twice; its
measured width 13 plus the shadow offset 1 exceeds the rectangle width 4. -/
theorem multibyte_draw_exceeds_width :
    codepointFont.elipses_length = (codepointFont.xftfont.extents ELIPSES).xOff ∧
      (∀ b, 0 ≤ codepointAdvance b) ∧ 0 ≤ accentedText.offset ∧
      g_utf8_strlen accentedText.string = 3 ∧
      font_measure_string accentedText.font accentedText.string accentedText.shadow
        accentedText.offset > (rectOfWidth 4).width ∧
      (fitStage accentedText (rectOfWidth 4)).text = [0xC3, 0xA9] ∧
      (fitStage accentedText (rectOfWidth 4)).l = 0 ∧
      font_draw accentedText (rectOfWidth 4) =
        [shadowCall accentedText 0 4 [46, 46, 46, 0xC3, 0xA9],
         textCall accentedText 0 4 [46, 46, 46, 0xC3, 0xA9]] ∧
      (accentedText.font.xftfont.extents [46, 46, 46, 0xC3, 0xA9]).xOff
        + accentedText.offset = 14 ∧
      (rectOfWidth 4).width < 14 := by
  refine ⟨by decide, ?_, by decide, by decide, by decide, by decide, by decide, by decide,
    by decide, by decide⟩
  intro b
  unfold codepointAdvance
  split
  · exact le_refl _
  · split <;> decide

/-- C3, as stated, fails: for "A" (10px) in a 7px rectangle with a 5px
ellipsis the loop is entered and removes the only character, `l` is zero at its
exit, and `font_draw` still draws: one call carrying "...". -/
theorem exhausted_string_still_draws_elipses :
    0 < g_utf8_strlen (plainText (fixedFont 5) (ascii "A")).string ∧
      font_measure_string (fixedFont 5) (ascii "A") false 0 > (rectOfWidth 7).width ∧
      (fitStage (plainText (fixedFont 5) (ascii "A")) (rectOfWidth 7)).l = 0 ∧
      (fitStage (plainText (fixedFont 5) (ascii "A")) (rectOfWidth 7)).text = [] ∧
      font_draw (plainText (fixedFont 5) (ascii "A")) (rectOfWidth 7) =
        [textCall (plainText (fixedFont 5) (ascii "A")) 0 4 (ascii "...")] := by
  decide

/-- C3, amended: when the loop is entered and `l` is zero at its exit,
`font_draw` makes no call if and only if the ellipsis footprint exceeds the
rectangle width; when the footprint fits, it draws the ellipsis, inserted at
index 0 of what is left of the text. -/
theorem exhausted_string_noop_iff_elipses_too_wide (t : TextureText) (position : Rect)
    (hl : 0 < g_utf8_strlen t.string)
    (hm : font_measure_string t.font t.string t.shadow t.offset > position.width)
    (h0 : (fitStage t position).l = 0) :
    (font_draw t position = [] ↔
        ELIPSES_LENGTH t.font t.shadow t.offset > position.width) ∧
      (ELIPSES_LENGTH t.font t.shadow t.offset ≤ position.width →
        font_draw t position =
          (if t.shadow then
            [shadowCall t (originX t position (fitStage t position).m) (originY t position)
              (ELIPSES ++ (fitStage t position).text)] else []) ++
          [textCall t (originX t position (fitStage t position).m) (originY t position)
            (ELIPSES ++ (fitStage t position).text)]) := by
  have hsh : (fitStage t position).shortened = shortenedInLoop t position.width :=
    fitLoop_shortened_of_entered t position.width _ _ _ false hl hm
  have hfits : ELIPSES_LENGTH t.font t.shadow t.offset ≤ position.width →
      font_draw t position =
        (if t.shadow then
          [shadowCall t (originX t position (fitStage t position).m) (originY t position)
            (ELIPSES ++ (fitStage t position).text)] else []) ++
        [textCall t (originX t position (fitStage t position).m) (originY t position)
          (ELIPSES ++ (fitStage t position).text)] := by
    intro hle
    have hs : (fitStage t position).shortened = true := by
      rw [hsh]; simp [shortenedInLoop, not_lt.mpr hle]
    have he : elipsesStage t position =
        { fitStage t position with
          text := ELIPSES ++ (fitStage t position).text, l := 3 } := by
      simp [elipsesStage, hs, h0, g_string_insert]
    have hne : (elipsesStage t position).l ≠ 0 := by rw [he]; simp
    rw [font_draw_of_pos t position hne, he]
  refine ⟨⟨?_, ?_⟩, hfits⟩
  · intro hnil
    by_contra hle
    have hd := hfits (not_lt.mp hle)
    rw [hnil] at hd
    simp at hd
  · intro hgt
    have hs : (fitStage t position).shortened = false := by
      rw [hsh]; simp [shortenedInLoop, hgt]
    apply font_draw_of_zero
    simp [elipsesStage, hs, h0]

/-- C3, amended, at "A" (10px) in a 7px rectangle with a 20px ellipsis: no
call. -/
theorem exhausted_string_noop_iff_elipses_too_wide_witness :
    font_draw (plainText (fixedFont 20) (ascii "A")) (rectOfWidth 7) = [] :=
  (exhausted_string_noop_iff_elipses_too_wide (plainText (fixedFont 20) (ascii "A"))
    (rectOfWidth 7) (by decide) (by decide) (by decide)).1.mpr (by decide)

/-- C4, as stated, fails: with 10px per character, a 20px ellipsis and a 15px
rectangle, the ellipsis footprint exceeds the rectangle, "AB" (20px) does not
fit, its remainder "A" after one removal from the middle measures 10px, which
is within the rectangle, and `font_draw` draws nothing. -/
theorem narrow_rect_draws_no_character :
    ELIPSES_LENGTH (fixedFont 20) false 0 > (rectOfWidth 15).width ∧
      font_measure_string (fixedFont 20) (ascii "AB") false 0 > (rectOfWidth 15).width ∧
      g_string_erase (ascii "AB") 1 1 = ascii "A" ∧
      font_measure_string (fixedFont 20) (ascii "A") false 0 ≤ (rectOfWidth 15).width ∧
      font_draw (plainText (fixedFont 20) (ascii "AB")) (rectOfWidth 15) = [] := by
  decide

/-- C4, amended: with non-negative extents and a non-negative shadow offset,
when the rectangle is narrower than the ellipsis footprint and the string does
not fit, `font_draw` suppresses the ellipsis (`shortened` is false after the
loop, nothing is inserted) and draws nothing at all, plain characters
included: the footprint stays in the measured width the loop tests. -/
theorem narrow_rect_suppresses_elipses_and_text (t : TextureText) (position : Rect)
    (hx : ∀ str, 0 ≤ (t.font.xftfont.extents str).xOff)
    (ho : t.shadow = true → 0 ≤ t.offset)
    (hem : t.font.elipses_length + (if t.shadow then t.offset else 0) > position.width)
    (hm : (t.font.xftfont.extents t.string).xOff + (if t.shadow then t.offset else 0)
      > position.width) :
    (fitStage t position).shortened = false ∧
      elipsesStage t position = fitStage t position ∧
      font_draw t position = [] := by
  have hs : (fitStage t position).shortened = false :=
    fitLoop_not_shortened t position.width hem _ _ _
  have he : elipsesStage t position = fitStage t position := by
    simp [elipsesStage, hs]
  refine ⟨hs, he, ?_⟩
  apply font_draw_of_zero
  rw [he]
  exact fitLoop_exhausts t position.width hx ho hem _ _ _ _ hm

/-- C4, amended, at "AB" with 10px per character, a 20px ellipsis and a 15px
rectangle. -/
theorem narrow_rect_suppresses_elipses_and_text_witness :
    font_draw (plainText (fixedFont 20) (ascii "AB")) (rectOfWidth 15) = [] :=
  (narrow_rect_suppresses_elipses_and_text (plainText (fixedFont 20) (ascii "AB"))
    (rectOfWidth 15)
    (fun str => List.sum_nonneg (by
      intro x hx
      obtain ⟨_, _, rfl⟩ := List.mem_map.mp hx
      decide))
    (by decide) (by decide) (by decide)).2.2

/-- C5: when the rectangle is narrower than the ellipsis footprint
(`rectWidth < elipses_length + (shadow ? offset : 0)`), `font_draw` never
inserts the ellipsis, whatever the string and the measurer: `shortened` is
false after the loop, every call carries the text the loop left, and that text
is a subsequence of the bytes of the request string. -/
theorem narrow_rect_never_inserts_elipses (t : TextureText) (position : Rect)
    (hem : position.width < t.font.elipses_length + (if t.shadow then t.offset else 0)) :
    (fitStage t position).shortened = false ∧
      elipsesStage t position = fitStage t position ∧
      (∀ d ∈ font_draw t position, d.text = (fitStage t position).text) ∧
      List.Sublist (fitStage t position).text t.string := by
  have hs : (fitStage t position).shortened = false :=
    fitLoop_not_shortened t position.width hem _ _ _
  have he : elipsesStage t position = fitStage t position := by
    simp [elipsesStage, hs]
  refine ⟨hs, he, ?_, fitLoop_text_sublist t position.width _ _ _ _⟩
  intro d hd
  rw [font_draw_text t position d hd, he]

/-- C5 at "AB" with 10px per character, a 20px ellipsis and a 15px
rectangle. -/
theorem narrow_rect_never_inserts_elipses_witness :
    (fitStage (plainText (fixedFont 20) (ascii "AB")) (rectOfWidth 15)).shortened = false :=
  (narrow_rect_never_inserts_elipses (plainText (fixedFont 20) (ascii "AB"))
    (rectOfWidth 15) (by decide)).1

/-- C6, as stated, fails: with 10px per character, a 20px ellipsis, no shadow
and a 50px rectangle, `font_draw` draws "HELLO WORLD" once and the text of the
call is not "H...D". -/
theorem hello_world_not_H_elipses_D :
    font_draw (plainText (fixedFont 20) (ascii "HELLO WORLD")) (rectOfWidth 50) ≠ [] ∧
      ∀ d ∈ font_draw (plainText (fixedFont 20) (ascii "HELLO WORLD")) (rectOfWidth 50),
        d.text ≠ ascii "H...D" := by
  decide

/-- C6, amended: with 10px per character, a 20px ellipsis, no shadow and a
50px rectangle, the loop shrinks "HELLO WORLD" (110px) to "HED", `font_draw`
makes one call with the text "HE...D", and the final measured width is 50px,
which is within the rectangle. -/
theorem hello_world_drawn_as_HE_elipses_D :
    font_measure_string (fixedFont 20) (ascii "HELLO WORLD") false 0 = 110 ∧
      (fitStage (plainText (fixedFont 20) (ascii "HELLO WORLD")) (rectOfWidth 50)).text
        = ascii "HED" ∧
      font_draw (plainText (fixedFont 20) (ascii "HELLO WORLD")) (rectOfWidth 50) =
        [textCall (plainText (fixedFont 20) (ascii "HELLO WORLD")) 0 4 (ascii "HE...D")] ∧
      (fitStage (plainText (fixedFont 20) (ascii "HELLO WORLD")) (rectOfWidth 50)).m = 50 ∧
      (fitStage (plainText (fixedFont 20) (ascii "HELLO WORLD")) (rectOfWidth 50)).m
        ≤ (rectOfWidth 50).width := by
  decide

/-- C7: when `font_draw` draws, its calls are made for the horizontal origin
`x` that is `rect.x` for `Justify_Left`, `rect.x + (rectWidth - m)` for
`Justify_Right` and `rect.x + (rectWidth - m) / 2` for `Justify_Center`, with
`m` the measured width at the exit of the fit loop and the division truncating
toward zero: for `rectWidth - m = -3` it gives `x = rect.x - 1`.  The text
call is at `x` and the shadow call, if any, at `x + offset`. -/
theorem justified_origin (t : TextureText) (position : Rect)
    (hd : font_draw t position ≠ []) :
    ∃ x : Int,
      (t.justify = Justify.Justify_Left → x = position.x) ∧
      (t.justify = Justify.Justify_Right →
        x = position.x + (position.width - (fitStage t position).m)) ∧
      (t.justify = Justify.Justify_Center →
        x = position.x + Int.tdiv (position.width - (fitStage t position).m) 2) ∧
      (t.justify = Justify.Justify_Center →
        position.width - (fitStage t position).m = -3 → x = position.x - 1) ∧
      (∀ d, (font_draw t position).getLast? = some d → d.x = x) ∧
      font_draw t position =
        (if t.shadow then
          [shadowCall t x (originY t position) (elipsesStage t position).text] else []) ++
        [textCall t x (originY t position) (elipsesStage t position).text] := by
  have hl := (font_draw_ne_nil_iff t position).mp hd
  refine ⟨originX t position (fitStage t position).m, ?_, ?_, ?_, ?_, ?_, ?_⟩
  · intro hj; simp [originX, hj]
  · intro hj; simp [originX, hj]
  · intro hj; simp [originX, hj]
  · intro hj h3
    have h2 : Int.tdiv (-3) 2 = -1 := by decide
    simp only [originX, hj, h3, h2]
    rfl
  · intro d hlast
    rw [font_draw_getLast t position d hlast, elipsesStage_m]
    rfl
  · rw [font_draw_of_pos t position hl, elipsesStage_m]

/-- C7 at a centred, shadowed "A" in a 10px rectangle: the ellipsis alone is
drawn with `m = 13`, so `rectWidth - m = -3` and the text call is at
`x = rect.x - 1`. -/
theorem justified_origin_witness :
    (rectOfWidth 10).width - (fitStage centredShadowText (rectOfWidth 10)).m = -3 ∧
      ∃ x : Int, x = (rectOfWidth 10).x - 1 ∧
        ∀ d, (font_draw centredShadowText (rectOfWidth 10)).getLast? = some d → d.x = x :=
  ⟨by decide,
    (justified_origin centredShadowText (rectOfWidth 10) (by decide)).elim
      (fun x h => ⟨x, h.2.2.2.1 rfl (by decide), h.2.2.2.2.1⟩)⟩

/-- C8: when `font_draw` draws anything, it makes exactly the shadow call and
then the text call when the shadow is on, and exactly the text call when it is
off; both carry the final text, the text call is at `(x, ascent + y)` and the
shadow call at `(x + offset, ascent + y + offset)`. -/
theorem draw_sequence (t : TextureText) (position : Rect)
    (hd : font_draw t position ≠ []) :
    (t.shadow = true →
      font_draw t position =
        [{ c := shadowColor t.tint,
           x := originX t position (fitStage t position).m + t.offset,
           y := t.font.xftfont.ascent + originY t position + t.offset,
           text := (elipsesStage t position).text },
         { c := textColor t.color,
           x := originX t position (fitStage t position).m,
           y := t.font.xftfont.ascent + originY t position,
           text := (elipsesStage t position).text }]) ∧
    (t.shadow = false →
      font_draw t position =
        [{ c := textColor t.color,
           x := originX t position (fitStage t position).m,
           y := t.font.xftfont.ascent + originY t position,
           text := (elipsesStage t position).text }]) := by
  have hl := (font_draw_ne_nil_iff t position).mp hd
  rw [font_draw_of_pos t position hl, elipsesStage_m]
  constructor
  · intro hs; simp [hs, shadowCall, textCall]
  · intro hs; simp [hs, textCall]

/-- C8 at the shadowed "A" in a 10px rectangle: two calls, the shadow first. -/
theorem draw_sequence_witness :
    (font_draw centredShadowText (rectOfWidth 10)).map (fun d => (d.c.pixel, d.x, d.y)) =
      [(Pixel.WhitePixel, 2, 17), (Pixel.value 7, -1, 14)] := by
  rw [(draw_sequence centredShadowText (rectOfWidth 10) (by decide)).1 rfl]
  decide

/-- C9: for an empty string `font_draw` makes no call, whatever the rectangle,
the font, the justification and the shadow settings. -/
theorem empty_string_no_draw (t : TextureText) (position : Rect) (he : t.string = []) :
    font_draw t position = [] := by
  apply font_draw_of_zero
  simp [elipsesStage, fitStage, he, g_utf8_strlen_nil, fitLoop_zero]

/-- C9 at the empty string in a 50px rectangle. -/
theorem empty_string_no_draw_witness :
    font_draw (plainText (fixedFont 20) []) (rectOfWidth 50) = [] :=
  empty_string_no_draw (plainText (fixedFont 20) []) (rectOfWidth 50) rfl

/-- C10: the text call of `font_draw` (its last call) has alpha `0xFFFF`
whatever the request colour, and each of red, green and blue is the 8-bit
channel `c` of the request expanded to `c | c << 8`, which is `257 * c`. -/
theorem text_call_full_alpha (t : TextureText) (position : Rect) (d : DrawCall)
    (hd : (font_draw t position).getLast? = some d) :
    d.c.color.alpha = 0xFFFF ∧
      (t.color.r ≤ 255 →
        d.c.color.red = t.color.r ||| t.color.r <<< 8 ∧ d.c.color.red = 257 * t.color.r) ∧
      (t.color.g ≤ 255 →
        d.c.color.green = t.color.g ||| t.color.g <<< 8 ∧
          d.c.color.green = 257 * t.color.g) ∧
      (t.color.b ≤ 255 →
        d.c.color.blue = t.color.b ||| t.color.b <<< 8 ∧ d.c.color.blue = 257 * t.color.b) := by
  rw [font_draw_getLast t position d hd]
  refine ⟨rfl, ?_, ?_, ?_⟩
  · intro h
    have := channel_expand t.color.r h
    simp only [textCall, textColor]
    omega
  · intro h
    have := channel_expand t.color.g h
    simp only [textCall, textColor]
    omega
  · intro h
    have := channel_expand t.color.b h
    simp only [textCall, textColor]
    omega

/-- C10 at the shadowed "A" with colour (18, 52, 255): the text call has
alpha 0xFFFF and colour (257 * 18, 257 * 52, 257 * 255). -/
theorem text_call_full_alpha_witness :
    ∃ d, (font_draw centredShadowText (rectOfWidth 10)).getLast? = some d ∧
      d.c.color.alpha = 0xFFFF ∧ d.c.color.red = 257 * 18 ∧
      d.c.color.green = 257 * 52 ∧ d.c.color.blue = 257 * 255 :=
  ⟨textCall centredShadowText (-1) 4 (ascii "..."), by decide,
    (text_call_full_alpha centredShadowText (rectOfWidth 10) _ (by decide)).1,
    ((text_call_full_alpha centredShadowText (rectOfWidth 10) _ (by decide)).2.1
      (by decide)).2,
    ((text_call_full_alpha centredShadowText (rectOfWidth 10) _ (by decide)).2.2.1
      (by decide)).2,
    ((text_call_full_alpha centredShadowText (rectOfWidth 10) _ (by decide)).2.2.2
      (by decide)).2⟩

/-! ## The loop as a sequence of iterations -/

theorem fitBody_succ (t : TextureText) (width : Int) (l : Nat) (text : List Nat) (m : Int)
    (shortened : Bool) :
    fitBody t width ⟨text, l + 1, m, shortened⟩ =
      ⟨g_string_erase text ((l + 1) / 2) 1, l,
        font_measure_string t.font (g_string_erase text ((l + 1) / 2) 1) t.shadow t.offset
          + ELIPSES_LENGTH t.font t.shadow t.offset,
        shortenedInLoop t width⟩ := rfl

theorem fitGuard_eq_true_iff (width : Int) (s : FitState) :
    fitGuard width s = true ↔ s.l ≠ 0 ∧ s.m > width := by
  simp [fitGuard]

theorem fitGuard_eq_false_iff (width : Int) (s : FitState) :
    fitGuard width s = false ↔ s.l = 0 ∨ s.m ≤ width := by
  rw [← Bool.not_eq_true, fitGuard_eq_true_iff]
  constructor
  · intro h
    by_cases h0 : s.l = 0
    · exact Or.inl h0
    · exact Or.inr (not_lt.mp (fun hm => h ⟨h0, hm⟩))
  · rintro (h | h) ⟨h1, h2⟩
    · exact h1 h
    · exact absurd h2 (not_lt.mpr h)

/-- The loop is the body iterated `fitIterations` times: the condition holds
before each of these iterations and fails after the last, and there are at most
`l` of them. -/
theorem fitLoop_trace (t : TextureText) (width : Int) (l : Nat) :
    ∀ (text : List Nat) (m : Int) (shortened : Bool),
      fitLoop t width l text m shortened
          = (fitBody t width)^[fitIterations t width l text m] ⟨text, l, m, shortened⟩ ∧
        (∀ j, j < fitIterations t width l text m →
          fitGuard width ((fitBody t width)^[j] ⟨text, l, m, shortened⟩) = true) ∧
        fitGuard width
          ((fitBody t width)^[fitIterations t width l text m] ⟨text, l, m, shortened⟩)
            = false ∧
        fitIterations t width l text m ≤ l := by
  induction l with
  | zero =>
    intro text m shortened
    refine ⟨rfl, ?_, ?_, le_refl _⟩
    · intro j hj; exact absurd hj (Nat.not_lt_zero j)
    · simp [fitIterations, fitGuard]
  | succ l ih =>
    intro text m shortened
    by_cases h : m > width
    · have hn : fitIterations t width (l + 1) text m
          = fitIterations t width l (g_string_erase text ((l + 1) / 2) 1)
              (font_measure_string t.font (g_string_erase text ((l + 1) / 2) 1)
                t.shadow t.offset + ELIPSES_LENGTH t.font t.shadow t.offset) + 1 := by
        simp [fitIterations, h]
      obtain ⟨h1, h2, h3, h4⟩ := ih (g_string_erase text ((l + 1) / 2) 1)
        (font_measure_string t.font (g_string_erase text ((l + 1) / 2) 1)
          t.shadow t.offset + ELIPSES_LENGTH t.font t.shadow t.offset)
        (shortenedInLoop t width)
      rw [hn]
      refine ⟨?_, ?_, ?_, by omega⟩
      · rw [fitLoop_step t width l text m _ h, Function.iterate_succ_apply, fitBody_succ]
        exact h1
      · intro j hj
        cases j with
        | zero =>
          rw [Function.iterate_zero_apply, fitGuard_eq_true_iff]
          exact ⟨Nat.succ_ne_zero l, h⟩
        | succ j =>
          rw [Function.iterate_succ_apply, fitBody_succ]
          exact h2 j (by omega)
      · rw [Function.iterate_succ_apply, fitBody_succ]
        exact h3
    · have hn : fitIterations t width (l + 1) text m = 0 := by
        simp [fitIterations, h]
      rw [hn]
      refine ⟨?_, ?_, ?_, Nat.zero_le _⟩
      · rw [fitLoop_fits t width (l + 1) text m _ (not_lt.mp h)]; rfl
      · intro j hj; exact absurd hj (Nat.not_lt_zero j)
      · rw [Function.iterate_zero_apply, fitGuard_eq_false_iff]
        exact Or.inr (not_lt.mp h)

theorem fitStage_eq_fitAfter (t : TextureText) (position : Rect) :
    fitStage t position = fitAfter t position (fitCount t position) :=
  (fitLoop_trace t position.width _ _ _ _).1

theorem fitCount_le (t : TextureText) (position : Rect) :
    fitCount t position ≤ g_utf8_strlen t.string :=
  (fitLoop_trace t position.width _ t.string
    (font_measure_string t.font t.string t.shadow t.offset) false).2.2.2

theorem fitGuard_before (t : TextureText) (position : Rect) (j : Nat)
    (hj : j < fitCount t position) :
    fitGuard position.width (fitAfter t position j) = true :=
  (fitLoop_trace t position.width _ _ _ _).2.1 j hj

theorem fitGuard_at_exit (t : TextureText) (position : Rect) :
    fitGuard position.width (fitAfter t position (fitCount t position)) = false :=
  (fitLoop_trace t position.width _ _ _ _).2.2.1

theorem fitAfter_succ (t : TextureText) (position : Rect) (j : Nat) :
    fitAfter t position (j + 1) = fitBody t position.width (fitAfter t position j) :=
  Function.iterate_succ_apply' _ _ _

theorem fitAfter_zero (t : TextureText) (position : Rect) :
    fitAfter t position 0 = fitInit t := rfl

/-- Every iteration decrements `l`. -/
theorem fitAfter_l (t : TextureText) (position : Rect) (j : Nat) :
    (fitAfter t position j).l = g_utf8_strlen t.string - j := by
  induction j with
  | zero => rfl
  | succ j ih =>
    rw [fitAfter_succ]
    show (fitAfter t position j).l - 1 = _
    omega

/-- After an iteration `m` is the measure of the text, shadow offset included,
plus the ellipsis footprint. -/
theorem fitAfter_m (t : TextureText) (position : Rect) (j : Nat) :
    (fitAfter t position (j + 1)).m
      = (t.font.xftfont.extents (fitAfter t position (j + 1)).text).xOff
        + (if t.shadow then t.offset else 0)
        + (t.font.elipses_length + (if t.shadow then t.offset else 0)) := by
  rw [fitAfter_succ]
  rfl

theorem utf8_count_le (p : List Nat) : ∀ k, utf8_count k p ≤ p.length := by
  induction p with
  | nil => intro k; simp [utf8_count]
  | cons b rest ih =>
    intro k
    cases k with
    | zero =>
      have := ih (g_utf8_skip b - 1)
      simp only [utf8_count, List.length_cons]
      omega
    | succ k =>
      have := ih k
      simp only [utf8_count, List.length_cons]
      omega

/-- A string has at most as many characters as bytes. -/
theorem g_utf8_strlen_le_length (p : List Nat) : g_utf8_strlen p ≤ p.length :=
  utf8_count_le p 0

/-- After `j` iterations, `j` bytes have been erased: the byte length of the
text exceeds `l` by as much as at the start. -/
theorem fitAfter_length (t : TextureText) (position : Rect) (j : Nat)
    (hj : j ≤ g_utf8_strlen t.string) :
    (fitAfter t position j).text.length + j = t.string.length := by
  induction j with
  | zero => rfl
  | succ j ih =>
    have hlen := ih (by omega)
    have hl := fitAfter_l t position j
    have hle := g_utf8_strlen_le_length t.string
    rw [fitAfter_succ]
    show (g_string_erase (fitAfter t position j).text ((fitAfter t position j).l / 2) 1).length
      + (j + 1) = _
    rw [g_string_erase_length _ _ _ (by omega)]
    omega

/-- The erase of an iteration made by the loop is inside the text. -/
theorem fitAfter_erase_in_range (t : TextureText) (position : Rect) (j : Nat)
    (hj : j < g_utf8_strlen t.string) :
    (fitAfter t position j).l / 2 < (fitAfter t position j).text.length := by
  have hlen := fitAfter_length t position j (by omega)
  have hl := fitAfter_l t position j
  have hle := g_utf8_strlen_le_length t.string
  omega

/-! ## The removal step against the spec -/

theorem utf8_chars_single_byte (p : List Nat) (h : ∀ b ∈ p, b < 0x80) :
    utf8_split 0 p = ([], p.map (fun b => [b])) := by
  induction p with
  | nil => rfl
  | cons b rest ih =>
    have hb : b < 0x80 := h b (List.mem_cons_self _ _)
    have hs : g_utf8_skip b - 1 = 0 := by
      unfold g_utf8_skip
      rw [if_pos (by omega)]
    have hr := ih (fun x hx => h x (List.mem_cons_of_mem _ hx))
    simp only [utf8_split, hs, hr, List.map_cons]

theorem flatten_singletons (p : List Nat) : (p.map (fun b => [b])).flatten = p := by
  induction p with
  | nil => rfl
  | cons b rest ih => simp only [List.map_cons, List.flatten_cons, ih]; rfl

theorem flatten_eraseIdx_singletons (p : List Nat) :
    ∀ k, ((p.map (fun b => [b])).eraseIdx k).flatten = p.eraseIdx k := by
  induction p with
  | nil => intro k; rfl
  | cons b rest ih =>
    intro k
    cases k with
    | zero => simp only [List.map_cons, List.eraseIdx_cons_zero, flatten_singletons]
    | succ k =>
      simp only [List.map_cons, List.eraseIdx_cons_succ, List.flatten_cons, ih k]
      rfl

/-- On a string of single-byte characters the erase of the code is the removal
of the spec: the character at the index is removed. -/
theorem single_byte_removal_matches_spec (p : List Nat) (k : Nat)
    (h : ∀ b ∈ p, b < 0x80) (hk : k < p.length) :
    g_string_erase p k 1 = removeCodepointSpec p k := by
  unfold removeCodepointSpec utf8_chars
  rw [utf8_chars_single_byte p h, flatten_eraseIdx_singletons, List.eraseIdx_eq_take_drop_succ]
  simp [g_string_erase, Nat.succ_le_of_lt hk]

/-- C11: for "aéé" (three characters, five bytes) in a 4px rectangle the first
iteration is made with `l = 3`; the spec removes the character at index 1, which
leaves "aé", but the code erases the single byte at index 1, the lead byte of
the first "é": the working text becomes the four bytes 61 A9 C3 A9, and `l` is
2 while `g_utf8_strlen` counts 3 characters in that text. -/
theorem multibyte_removal_erases_one_byte :
    g_utf8_strlen accentedText.string = 3 ∧
      fitGuard (rectOfWidth 4).width (fitAfter accentedText (rectOfWidth 4) 0) = true ∧
      removeCodepointSpec accentedText.string (3 / 2) = [0x61, 0xC3, 0xA9] ∧
      (fitAfter accentedText (rectOfWidth 4) 1).text = [0x61, 0xA9, 0xC3, 0xA9] ∧
      (fitAfter accentedText (rectOfWidth 4) 1).text
        ≠ removeCodepointSpec accentedText.string (3 / 2) ∧
      (fitAfter accentedText (rectOfWidth 4) 1).l = 2 ∧
      g_utf8_strlen (fitAfter accentedText (rectOfWidth 4) 1).text = 3 := by
  decide

/-- At the exit of the loop the text has at least `l` bytes. -/
theorem fitStage_l_le_length (t : TextureText) (position : Rect) :
    (fitStage t position).l ≤ (fitStage t position).text.length := by
  have h := fitLoop_length t position.width (g_utf8_strlen t.string) t.string
    (font_measure_string t.font t.string t.shadow t.offset) false
    (g_utf8_strlen_le_length t.string)
  have hle := g_utf8_strlen_le_length t.string
  unfold fitStage
  omega

/-- Erasing the middle byte of the first `⌈(k+1)/2⌉` and last `⌊(k+1)/2⌋` bytes
of a string leaves its first `⌈k/2⌉` and last `⌊k/2⌋` bytes. -/
theorem g_string_erase_middle (s : List Nat) (k : Nat) (hk : k + 1 ≤ s.length) :
    g_string_erase (s.take ((k + 2) / 2) ++ s.drop (s.length - (k + 1) / 2)) ((k + 1) / 2) 1
      = s.take ((k + 1) / 2) ++ s.drop (s.length - k / 2) := by
  have hlen : (s.take ((k + 2) / 2) ++ s.drop (s.length - (k + 1) / 2)).length = k + 1 := by
    simp only [List.length_append, List.length_take, List.length_drop]
    omega
  have hin : (k + 1) / 2 + 1 ≤
      (s.take ((k + 2) / 2) ++ s.drop (s.length - (k + 1) / 2)).length := by
    rw [hlen]; omega
  unfold g_string_erase
  rw [if_pos hin]
  have htl : (s.take ((k + 2) / 2)).length = (k + 2) / 2 := by
    rw [List.length_take]; omega
  rcases Nat.even_or_odd' k with ⟨i, rfl | rfl⟩
  · have e1 : (2 * i + 2) / 2 = i + 1 := by omega
    have e2 : (2 * i + 1) / 2 = i := by omega
    have e3 : 2 * i / 2 = i := by omega
    rw [e1] at htl
    simp only [e1, e2, e3]
    rw [List.take_append_of_le_length (by omega), List.take_take,
      List.drop_append_of_le_length (by omega), List.drop_take]
    simp
  · have e1 : (2 * i + 1 + 2) / 2 = i + 1 := by omega
    have e2 : (2 * i + 1 + 1) / 2 = i + 1 := by omega
    have e3 : (2 * i + 1) / 2 = i := by omega
    rw [e1] at htl
    simp only [e1, e2, e3]
    rw [List.take_append_of_le_length (by omega), List.take_take,
      List.drop_append_eq_append_drop, htl, List.drop_take, List.drop_drop]
    have e4 : s.length - (i + 1) + 1 = s.length - i := by omega
    simp [e4]

/-- On a string of single-byte characters the text after `j` iterations is the
first `⌈l/2⌉` and the last `⌊l/2⌋` bytes of the string, for `l` the characters
left. -/
theorem fitAfter_text_single_byte (t : TextureText) (position : Rect)
    (hascii : ∀ b ∈ t.string, b < 0x80) (j : Nat) (hj : j ≤ t.string.length) :
    (fitAfter t position j).text
      = t.string.take ((t.string.length - j + 1) / 2)
        ++ t.string.drop (t.string.length - (t.string.length - j) / 2) := by
  have hL : g_utf8_strlen t.string = t.string.length :=
    g_utf8_strlen_single_byte t.string hascii
  induction j with
  | zero =>
    rw [fitAfter_zero]
    show t.string = _
    have e : t.string.length - (t.string.length - 0) / 2 = (t.string.length - 0 + 1) / 2 := by
      omega
    rw [e, List.take_append_drop]
  | succ j ih =>
    have hprev := ih (by omega)
    have hl := fitAfter_l t position j
    rw [hL] at hl
    obtain ⟨k, hk⟩ : ∃ k, t.string.length - j = k + 1 := ⟨t.string.length - j - 1, by omega⟩
    rw [fitAfter_succ]
    show g_string_erase (fitAfter t position j).text ((fitAfter t position j).l / 2) 1 = _
    rw [hprev, hl, hk]
    have e1 : t.string.length - (j + 1) = k := by omega
    rw [e1, g_string_erase_middle t.string k (by omega)]

/-- The insertion of the ellipsis when the loop ends with `shortened` true. -/
theorem elipsesStage_text_of_shortened (t : TextureText) (position : Rect)
    (hs : (fitStage t position).shortened = true) :
    (elipsesStage t position).text =
        (fitStage t position).text.take (((fitStage t position).l + 1) / 2) ++ ELIPSES ++
          (fitStage t position).text.drop (((fitStage t position).l + 1) / 2) ∧
      ∀ d ∈ font_draw t position,
        d.text =
          (fitStage t position).text.take (((fitStage t position).l + 1) / 2) ++ ELIPSES ++
            (fitStage t position).text.drop (((fitStage t position).l + 1) / 2) := by
  have hb : ((fitStage t position).l + 1) / 2 ≤ (fitStage t position).text.length := by
    have := fitStage_l_le_length t position
    omega
  have htext : (elipsesStage t position).text =
      (fitStage t position).text.take (((fitStage t position).l + 1) / 2) ++ ELIPSES ++
        (fitStage t position).text.drop (((fitStage t position).l + 1) / 2) := by
    simp [elipsesStage, hs, g_string_insert, hb]
  refine ⟨htext, ?_⟩
  intro d hd
  rw [font_draw_text t position d hd, htext]

/-- A percentage of `0xFFFF` stored in an `unsigned short` is not reduced. -/
theorem toUShort_scaled (n : Nat) (hn : n ≤ 100) :
    toUShort (Int.tdiv (0xffff * (n : Int)) 100) = 0xFFFF * n / 100 := by
  have h0 : (0 : Int) ≤ 0xffff * (n : Int) := by positivity
  rw [Int.tdiv_eq_ediv h0 (by decide)]
  unfold toUShort
  have h1 : (0xffff * (n : Int) / 100) = ((0xFFFF * n / 100 : Nat) : Int) := by
    push_cast; rfl
  rw [h1]
  have h2 : 0xFFFF * n / 100 < 65536 := by omega
  omega

theorem shadowColor_of_nonneg (tint : Int) (h0 : 0 ≤ tint) (h : tint ≤ 100) :
    shadowColor tint =
      { pixel := Pixel.BlackPixel,
        color := { red := 0, green := 0, blue := 0, alpha := 0xFFFF * tint.natAbs / 100 } } := by
  obtain ⟨n, rfl⟩ := Int.eq_ofNat_of_zero_le h0
  have hn : n ≤ 100 := by omega
  unfold shadowColor
  rw [if_pos h0, toUShort_scaled n hn, Int.natAbs_ofNat]

theorem shadowColor_of_neg (tint : Int) (h0 : tint < 0) (h : -100 ≤ tint) :
    shadowColor tint =
      { pixel := Pixel.WhitePixel,
        color := { red := 0xFFFF * tint.natAbs / 100, green := 0xFFFF * tint.natAbs / 100,
                   blue := 0xFFFF * tint.natAbs / 100,
                   alpha := 0xFFFF * tint.natAbs / 100 } } := by
  obtain ⟨n, rfl⟩ : ∃ n : Nat, tint = -(n : Int) := ⟨tint.natAbs, by omega⟩
  have hn : n ≤ 100 := by omega
  unfold shadowColor
  rw [if_neg (by omega), neg_neg, toUShort_scaled n hn, Int.natAbs_neg, Int.natAbs_ofNat]

/-- With enough fuel the bounded `while` ends in the state of the loop. -/
theorem fitWhile_eq_fitLoop (t : TextureText) (width : Int) (fuel : Nat) :
    ∀ s : FitState, s.l ≤ fuel →
      fitWhile t width fuel s = some (fitLoop t width s.l s.text s.m s.shortened) := by
  induction fuel with
  | zero =>
    intro s hs
    obtain ⟨text, l, m, shortened⟩ := s
    have hl : l = 0 := by simpa using hs
    subst hl
    simp [fitWhile, fitGuard, fitLoop_zero]
  | succ fuel ih =>
    intro s hs
    obtain ⟨text, l, m, shortened⟩ := s
    by_cases hg : fitGuard width ⟨text, l, m, shortened⟩ = true
    · obtain ⟨hl, hm⟩ := (fitGuard_eq_true_iff _ _).mp hg
      obtain ⟨k, rfl⟩ : ∃ k, l = k + 1 := ⟨l - 1, by simp at hl; omega⟩
      simp only [fitWhile, hg, if_true]
      rw [fitBody_succ, ih _ (by simpa using hs)]
      simp only
      rw [fitLoop_step t width k text m shortened hm]
    · have hg2 : fitGuard width ⟨text, l, m, shortened⟩ = false := by simpa using hg
      simp only [fitWhile, hg2]
      rcases (fitGuard_eq_false_iff _ _).mp hg2 with h0 | hfit
      · have hl : l = 0 := h0
        subst hl
        simp [fitLoop_zero]
      · have hm : m ≤ width := hfit
        simp [fitLoop_fits t width l text m shortened hm]

/-- The counter at the exit of the loop: the characters of the string less the
iterations made. -/
theorem fitStage_l (t : TextureText) (position : Rect) :
    (fitStage t position).l = g_utf8_strlen t.string - fitCount t position := by
  rw [fitStage_eq_fitAfter, fitAfter_l]

/-- The iterations only erase: the text after `j` of them is a subsequence of
the string. -/
theorem fitAfter_text_sublist (t : TextureText) (position : Rect) (j : Nat) :
    List.Sublist (fitAfter t position j).text t.string := by
  induction j with
  | zero => exact List.Sublist.refl _
  | succ j ih =>
    rw [fitAfter_succ]
    exact (g_string_erase_sublist _ _ _).trans ih

/-- On a string of single-byte characters the counter `l` is, after every
iteration the loop can make, the number of characters of the working text. -/
theorem fitAfter_strlen_single_byte (t : TextureText) (position : Rect)
    (hascii : ∀ b ∈ t.string, b < 0x80) (j : Nat) (hj : j ≤ g_utf8_strlen t.string) :
    g_utf8_strlen (fitAfter t position j).text = (fitAfter t position j).l ∧
      (fitAfter t position j).text.length = (fitAfter t position j).l := by
  have hL : g_utf8_strlen t.string = t.string.length :=
    g_utf8_strlen_single_byte t.string hascii
  have hsub := fitAfter_text_sublist t position j
  have hlen := fitAfter_length t position j hj
  have hl := fitAfter_l t position j
  have hcount : g_utf8_strlen (fitAfter t position j).text
      = (fitAfter t position j).text.length :=
    g_utf8_strlen_single_byte _ (fun x hx => hascii x (hsub.subset hx))
  constructor
  · rw [hcount]; omega
  · omega

/-- On a string of single-byte characters the counter `l` at the exit of the
loop is the number of characters left in the text. -/
theorem fitStage_strlen_single_byte (t : TextureText) (position : Rect)
    (hascii : ∀ b ∈ t.string, b < 0x80) :
    g_utf8_strlen (fitStage t position).text = (fitStage t position).l ∧
      (fitStage t position).text.length = (fitStage t position).l := by
  rw [fitStage_eq_fitAfter]
  exact fitAfter_strlen_single_byte t position hascii _ (fitCount_le t position)

/-! ## Properties of the loop and of the layout -/

/-- C12, as stated, fails: "HELLO WORLD" with 10px per character, a 20px
ellipsis and a 50px rectangle ends truncated with `l = 3` and the text "HED";
inserting at index `3 / 2 = 1` would give "H...ED", and the code produces
"HE...D". -/
theorem elipses_not_inserted_at_lower_middle :
    (fitStage (plainText (fixedFont 20) (ascii "HELLO WORLD")) (rectOfWidth 50)).shortened
        = true ∧
      (fitStage (plainText (fixedFont 20) (ascii "HELLO WORLD")) (rectOfWidth 50)).l = 3 ∧
      (fitStage (plainText (fixedFont 20) (ascii "HELLO WORLD")) (rectOfWidth 50)).text
        = ascii "HED" ∧
      g_string_insert (ascii "HED") (3 / 2) ELIPSES = ascii "H...ED" ∧
      (elipsesStage (plainText (fixedFont 20) (ascii "HELLO WORLD")) (rectOfWidth 50)).text
        = ascii "HE...D" ∧
      (elipsesStage (plainText (fixedFont 20) (ascii "HELLO WORLD")) (rectOfWidth 50)).text
        ≠ g_string_insert (ascii "HED") (3 / 2) ELIPSES := by
  decide

/-- The insertion of line 137 for any request: when the loop ends with
`shortened` true, "..." goes to position `(l + 1) / 2` of the text, which is
inside the text, and 3 is added to `l`. -/
theorem elipsesStage_of_shortened (t : TextureText) (position : Rect)
    (hs : (fitStage t position).shortened = true) :
    ((fitStage t position).l + 1) / 2 ≤ (fitStage t position).text.length ∧
      (elipsesStage t position).text =
        (fitStage t position).text.take (((fitStage t position).l + 1) / 2) ++ ELIPSES ++
          (fitStage t position).text.drop (((fitStage t position).l + 1) / 2) ∧
      (elipsesStage t position).l = (fitStage t position).l + 3 ∧
      ∀ d ∈ font_draw t position,
        d.text =
          (fitStage t position).text.take (((fitStage t position).l + 1) / 2) ++ ELIPSES ++
            (fitStage t position).text.drop (((fitStage t position).l + 1) / 2) := by
  have hb : ((fitStage t position).l + 1) / 2 ≤ (fitStage t position).text.length := by
    have := fitStage_l_le_length t position
    omega
  have htext : (elipsesStage t position).text =
      (fitStage t position).text.take (((fitStage t position).l + 1) / 2) ++ ELIPSES ++
        (fitStage t position).text.drop (((fitStage t position).l + 1) / 2) := by
    simp [elipsesStage, hs, g_string_insert, hb]
  refine ⟨hb, htext, by simp [elipsesStage, hs], ?_⟩
  intro d hd
  rw [font_draw_text t position d hd, htext]

/-- C12, amended: for a request on a string of single-byte characters that
ends truncated, with `charCount` the number of characters left after the loop
(which is the counter `l`), `font_draw` inserts "..." at index
`(charCount + 1) / 2` of the shrunk text and then adds 3 to `charCount`, which
is again the number of characters of the text; every call carries the text
with the ellipsis at that index. -/
theorem single_byte_elipses_inserted_at_upper_middle (t : TextureText) (position : Rect)
    (hascii : ∀ b ∈ t.string, b < 0x80)
    (hs : (fitStage t position).shortened = true) :
    (fitStage t position).l = g_utf8_strlen (fitStage t position).text ∧
      (g_utf8_strlen (fitStage t position).text + 1) / 2
        ≤ (fitStage t position).text.length ∧
      (elipsesStage t position).text =
        (fitStage t position).text.take
            ((g_utf8_strlen (fitStage t position).text + 1) / 2) ++ ELIPSES ++
          (fitStage t position).text.drop
            ((g_utf8_strlen (fitStage t position).text + 1) / 2) ∧
      (elipsesStage t position).l = g_utf8_strlen (fitStage t position).text + 3 ∧
      g_utf8_strlen (elipsesStage t position).text = (elipsesStage t position).l ∧
      ∀ d ∈ font_draw t position,
        d.text =
          (fitStage t position).text.take
              ((g_utf8_strlen (fitStage t position).text + 1) / 2) ++ ELIPSES ++
            (fitStage t position).text.drop
              ((g_utf8_strlen (fitStage t position).text + 1) / 2) := by
  obtain ⟨hcount, hlen⟩ := fitStage_strlen_single_byte t position hascii
  obtain ⟨hb, htext, hl3, hcalls⟩ := elipsesStage_of_shortened t position hs
  have hta : ∀ x ∈ (fitStage t position).text, x < 0x80 :=
    fun x hx => hascii x ((fitLoop_text_sublist t position.width _ _ _ _).subset hx)
  rw [hcount]
  refine ⟨rfl, hb, htext, hl3, ?_, hcalls⟩
  have hE : ∀ x ∈ ELIPSES, x < 0x80 := by decide
  have hall : ∀ x ∈ (elipsesStage t position).text, x < 0x80 := by
    intro x hx
    rw [htext] at hx
    rcases List.mem_append.mp hx with h | h
    · rcases List.mem_append.mp h with h1 | h1
      · exact hta x (List.mem_of_mem_take h1)
      · exact hE x h1
    · exact hta x (List.mem_of_mem_drop h)
  rw [g_utf8_strlen_single_byte _ hall, hl3, htext]
  simp only [List.length_append, List.length_take, List.length_drop, ELIPSES,
    List.length_cons, List.length_nil]
  omega

/-- C12, amended, at "HELLO WORLD": three characters are left, the ellipsis
goes to index `(3 + 1) / 2 = 2` of "HED" and the count becomes 6. -/
theorem single_byte_elipses_inserted_at_upper_middle_witness :
    g_utf8_strlen
        (fitStage (plainText (fixedFont 20) (ascii "HELLO WORLD")) (rectOfWidth 50)).text = 3 ∧
      (elipsesStage (plainText (fixedFont 20) (ascii "HELLO WORLD")) (rectOfWidth 50)).text
        = (ascii "HED").take 2 ++ ELIPSES ++ (ascii "HED").drop 2 ∧
      (elipsesStage (plainText (fixedFont 20) (ascii "HELLO WORLD")) (rectOfWidth 50)).l
        = g_utf8_strlen
          (fitStage (plainText (fixedFont 20) (ascii "HELLO WORLD")) (rectOfWidth 50)).text
          + 3 :=
  ⟨by decide, by decide,
    (single_byte_elipses_inserted_at_upper_middle
      (plainText (fixedFont 20) (ascii "HELLO WORLD")) (rectOfWidth 50)
      (by decide) (by decide)).2.2.2.1⟩

/-- C13: for a string `s` of `L` single-byte characters, the first iteration
erases index `L / 2`, and after any number `j ≤ L` of iterations, with
`l = L - j` characters left, the working text is the first `⌈l/2⌉` characters of
`s` followed by its last `⌊l/2⌋` characters; so is the text at the exit of the
loop, and when `shortened` is true every call carries that first part, then
"...", then that last part. -/
theorem single_byte_removals_form_middle_block (t : TextureText) (position : Rect)
    (hascii : ∀ b ∈ t.string, b < 0x80) :
    (0 < t.string.length →
        (fitAfter t position 0).l / 2 = t.string.length / 2 ∧
        (fitAfter t position 1).text
          = t.string.take (t.string.length / 2) ++ t.string.drop (t.string.length / 2 + 1)) ∧
      (∀ j, j ≤ t.string.length →
        (fitAfter t position j).l = t.string.length - j ∧
        (fitAfter t position j).text
          = t.string.take ((t.string.length - j + 1) / 2)
            ++ t.string.drop (t.string.length - (t.string.length - j) / 2)) ∧
      (fitStage t position).l ≤ t.string.length ∧
      (fitStage t position).text
        = t.string.take (((fitStage t position).l + 1) / 2)
          ++ t.string.drop (t.string.length - (fitStage t position).l / 2) ∧
      ((fitStage t position).shortened = true →
        ∀ d ∈ font_draw t position,
          d.text = t.string.take (((fitStage t position).l + 1) / 2) ++ ELIPSES
            ++ t.string.drop (t.string.length - (fitStage t position).l / 2)) := by
  have hL : g_utf8_strlen t.string = t.string.length :=
    g_utf8_strlen_single_byte t.string hascii
  have hcount : fitCount t position ≤ t.string.length := hL ▸ fitCount_le t position
  have hl : (fitStage t position).l = t.string.length - fitCount t position := by
    rw [fitStage_eq_fitAfter, fitAfter_l, hL]
  have htext : (fitStage t position).text
      = t.string.take (((fitStage t position).l + 1) / 2)
        ++ t.string.drop (t.string.length - (fitStage t position).l / 2) := by
    rw [hl, fitStage_eq_fitAfter]
    exact fitAfter_text_single_byte t position hascii _ hcount
  refine ⟨?_, ?_, by omega, htext, ?_⟩
  · intro hpos
    refine ⟨by rw [fitAfter_l, hL, Nat.sub_zero], ?_⟩
    rw [fitAfter_text_single_byte t position hascii 1 (by omega)]
    have e1 : (t.string.length - 1 + 1) / 2 = t.string.length / 2 := by
      rw [Nat.sub_add_cancel hpos]
    have e2 : t.string.length - (t.string.length - 1) / 2 = t.string.length / 2 + 1 := by
      omega
    rw [e1, e2]
  · intro j hj
    exact ⟨by rw [fitAfter_l, hL], fitAfter_text_single_byte t position hascii j hj⟩
  · intro hs d hd
    rw [(elipsesStage_text_of_shortened t position hs).2 d hd]
    have hp : (t.string.take (((fitStage t position).l + 1) / 2)).length
        = ((fitStage t position).l + 1) / 2 := by
      rw [List.length_take]; omega
    conv_lhs => rw [htext]
    rw [List.take_append_of_le_length (by omega), List.take_take,
      List.drop_append_of_le_length (by omega), List.drop_take]
    simp

/-- C13 at "HELLO WORLD" with 10px per character, a 20px ellipsis and a 50px
rectangle: three characters are left, "HE" and "D". -/
theorem single_byte_removals_form_middle_block_witness :
    (fitStage (plainText (fixedFont 20) (ascii "HELLO WORLD")) (rectOfWidth 50)).text
      = (ascii "HELLO WORLD").take
          (((fitStage (plainText (fixedFont 20) (ascii "HELLO WORLD")) (rectOfWidth 50)).l
            + 1) / 2)
        ++ (ascii "HELLO WORLD").drop ((ascii "HELLO WORLD").length
          - (fitStage (plainText (fixedFont 20) (ascii "HELLO WORLD")) (rectOfWidth 50)).l
            / 2) :=
  (single_byte_removals_form_middle_block (plainText (fixedFont 20) (ascii "HELLO WORLD"))
    (rectOfWidth 50) (by decide)).2.2.2.1

/-- C14, as stated, fails: red, green and blue are not `0xFFFF` at every tint
with `|tint| = 100`, they are 0 at tint 100; and they are not non-decreasing in
`|tint|`: at tint -50 they are 32767 and at tint 60, of larger magnitude, they
are 0. -/
theorem shadow_rgb_not_monotone_in_magnitude :
    (100 : Int).natAbs = 100 ∧
      (shadowColor 100).color.red = 0 ∧ (shadowColor 100).color.green = 0 ∧
      (shadowColor 100).color.blue = 0 ∧
      (shadowColor 100).color.red ≠ 0xFFFF ∧
      (-50 : Int).natAbs ≤ (60 : Int).natAbs ∧
      (shadowColor (-50)).color.red = 32767 ∧ (shadowColor 60).color.red = 0 ∧
      ¬ ((shadowColor (-50)).color.red ≤ (shadowColor 60).color.red) := by
  decide

/-- C14, amended: for a tint in [-100, 100] the shadow colour is black with
alpha `0xFFFF * tint / 100` when the tint is not negative, and has red, green,
blue and alpha all `0xFFFF * (-tint) / 100` when it is negative.  Every channel
is at most `0xFFFF` (the store in the `unsigned short` does not wrap); alpha is
non-decreasing in `|tint|`, is `0xFFFF` at `|tint| = 100` and 0 at tint 0; red,
green and blue are non-decreasing in `|tint|` between two tints of the same
sign, are `0xFFFF` at tint -100 and 0 at tint 0. -/
theorem shadow_color_scaled (tint : Int) (hlo : -100 ≤ tint) (hhi : tint ≤ 100) :
    (0 ≤ tint →
        (shadowColor tint).color
          = { red := 0, green := 0, blue := 0, alpha := 0xFFFF * tint.natAbs / 100 }) ∧
      (tint < 0 →
        (shadowColor tint).color
          = { red := 0xFFFF * tint.natAbs / 100, green := 0xFFFF * tint.natAbs / 100,
              blue := 0xFFFF * tint.natAbs / 100, alpha := 0xFFFF * tint.natAbs / 100 }) ∧
      ((shadowColor tint).color.red ≤ 0xFFFF ∧ (shadowColor tint).color.green ≤ 0xFFFF ∧
        (shadowColor tint).color.blue ≤ 0xFFFF ∧ (shadowColor tint).color.alpha ≤ 0xFFFF) ∧
      (∀ tint2 : Int, -100 ≤ tint2 → tint2 ≤ 100 → tint.natAbs ≤ tint2.natAbs →
        (shadowColor tint).color.alpha ≤ (shadowColor tint2).color.alpha ∧
        ((0 ≤ tint ↔ 0 ≤ tint2) →
          (shadowColor tint).color.red ≤ (shadowColor tint2).color.red ∧
          (shadowColor tint).color.green ≤ (shadowColor tint2).color.green ∧
          (shadowColor tint).color.blue ≤ (shadowColor tint2).color.blue)) ∧
      (tint.natAbs = 100 → (shadowColor tint).color.alpha = 0xFFFF) ∧
      (tint = -100 →
        (shadowColor tint).color.red = 0xFFFF ∧ (shadowColor tint).color.green = 0xFFFF ∧
        (shadowColor tint).color.blue = 0xFFFF) ∧
      (tint = 0 →
        (shadowColor tint).color = { red := 0, green := 0, blue := 0, alpha := 0 }) := by
  have hbound : 0xFFFF * tint.natAbs / 100 ≤ 0xFFFF := by omega
  refine ⟨?_, ?_, ?_, ?_, ?_, ?_, ?_⟩
  · intro h0; rw [shadowColor_of_nonneg tint h0 hhi]
  · intro h0; rw [shadowColor_of_neg tint h0 hlo]
  · rcases le_or_lt 0 tint with h0 | h0
    · rw [shadowColor_of_nonneg tint h0 hhi]
      exact ⟨Nat.zero_le _, Nat.zero_le _, Nat.zero_le _, hbound⟩
    · rw [shadowColor_of_neg tint h0 hlo]
      exact ⟨hbound, hbound, hbound, hbound⟩
  · intro tint2 hlo2 hhi2 habs
    have hmono : 0xFFFF * tint.natAbs / 100 ≤ 0xFFFF * tint2.natAbs / 100 :=
      Nat.div_le_div_right (Nat.mul_le_mul_left _ habs)
    rcases le_or_lt 0 tint with h0 | h0
    · rcases le_or_lt 0 tint2 with h2 | h2
      · rw [shadowColor_of_nonneg tint h0 hhi, shadowColor_of_nonneg tint2 h2 hhi2]
        exact ⟨hmono, fun _ => ⟨le_refl _, le_refl _, le_refl _⟩⟩
      · rw [shadowColor_of_nonneg tint h0 hhi, shadowColor_of_neg tint2 h2 hlo2]
        exact ⟨hmono, fun _ => ⟨Nat.zero_le _, Nat.zero_le _, Nat.zero_le _⟩⟩
    · rcases le_or_lt 0 tint2 with h2 | h2
      · rw [shadowColor_of_neg tint h0 hlo, shadowColor_of_nonneg tint2 h2 hhi2]
        refine ⟨hmono, fun hsign => ?_⟩
        exact absurd (hsign.mpr h2) (not_le.mpr h0)
      · rw [shadowColor_of_neg tint h0 hlo, shadowColor_of_neg tint2 h2 hlo2]
        exact ⟨hmono, fun _ => ⟨hmono, hmono, hmono⟩⟩
  · intro habs
    rcases le_or_lt 0 tint with h0 | h0
    · rw [shadowColor_of_nonneg tint h0 hhi, habs]
    · rw [shadowColor_of_neg tint h0 hlo, habs]
  · intro h
    subst h
    decide
  · intro h
    subst h
    decide

/-- C14, amended, at tint 50 and at tint -40: alpha 32767 on black, and 26214
on every channel. -/
theorem shadow_color_scaled_witness :
    (shadowColor 50).color = { red := 0, green := 0, blue := 0, alpha := 32767 } ∧
      (shadowColor (-40)).color
        = { red := 26214, green := 26214, blue := 26214, alpha := 26214 } :=
  ⟨(shadow_color_scaled 50 (by decide) (by decide)).1 (by decide),
    (shadow_color_scaled (-40) (by decide) (by decide)).2.1 (by decide)⟩

/-- C15: the vertical origin of `font_draw` is
`y = rect.y - (2 * (ascent + descent) - (height + rectHeight) - 1) / 2`, with the
ascent and descent of the backend font, the cached `height` of the font and a
division that truncates toward zero (a numerator of -9 gives -4, so
`y = rect.y + 4`); the text call is made at the baseline `ascent + y` and the
shadow call at `ascent + y + offset`, and `font_draw` makes no other call. -/
theorem baseline_origin (t : TextureText) (position : Rect) :
    ∃ y : Int,
      y = position.y -
        Int.tdiv (2 * (t.font.xftfont.ascent + t.font.xftfont.descent)
          - (t.font.height + position.height) - 1) 2 ∧
      (2 * (t.font.xftfont.ascent + t.font.xftfont.descent)
          - (t.font.height + position.height) - 1 = -9 → y = position.y + 4) ∧
      (∀ d, (font_draw t position).getLast? = some d → d.y = t.font.xftfont.ascent + y) ∧
      (t.shadow = true → ∀ d, (font_draw t position).head? = some d →
        d.y = t.font.xftfont.ascent + y + t.offset) ∧
      (∀ d ∈ font_draw t position,
        d.y = t.font.xftfont.ascent + y ∨
          (t.shadow = true ∧ d.y = t.font.xftfont.ascent + y + t.offset)) := by
  refine ⟨originY t position, rfl, ?_, ?_, ?_, ?_⟩
  · intro h9
    have h2 : Int.tdiv (-9) 2 = -4 := by decide
    simp only [originY, h9, h2]
    omega
  · intro d hd
    rw [font_draw_getLast t position d hd]
    rfl
  · intro hs d hd
    by_cases hl : (elipsesStage t position).l = 0
    · rw [font_draw_of_zero t position hl] at hd
      simp at hd
    · rw [font_draw_of_pos t position hl] at hd
      simp [hs] at hd
      subst hd
      rfl
  · intro d hd
    by_cases hl : (elipsesStage t position).l = 0
    · rw [font_draw_of_zero t position hl] at hd
      exact absurd hd (List.not_mem_nil d)
    · rw [font_draw_of_pos t position hl] at hd
      by_cases hs : t.shadow = true
      · simp [hs] at hd
        rcases hd with rfl | rfl
        · exact Or.inr ⟨hs, rfl⟩
        · exact Or.inl rfl
      · simp [hs] at hd
        subst hd
        exact Or.inl rfl

/-- C15 at the shadowed "A" in a rectangle 21 pixels high (ascent 10, descent
3, height 13): the numerator is -9, `y` is 4, the text call is at baseline 14
and the shadow call at 17. -/
theorem baseline_origin_witness :
    (font_draw centredShadowText { x := 0, y := 0, width := 10, height := 21 }).map
        (fun d => d.y) = [17, 14] ∧
      ∃ y : Int, y = 4 ∧
        ∀ d, (font_draw centredShadowText
            { x := 0, y := 0, width := 10, height := 21 }).getLast? = some d →
          d.y = centredShadowText.font.xftfont.ascent + y :=
  ⟨by decide,
    (baseline_origin centredShadowText { x := 0, y := 0, width := 10, height := 21 }).elim
      (fun y h => ⟨y, by have := h.2.1 (by decide); simpa using this, h.2.2.1⟩)⟩

/-- The loop in a rectangle narrower than the ellipsis footprint, for any
string: with non-negative extents and a non-negative shadow offset, when the
string does not fit and the ellipsis footprint exceeds the rectangle width,
the loop makes one iteration for every character of the string and ends with
`l = 0` (with an empty text when the characters are single bytes), and
`font_draw` makes no call: after every iteration `shortened` is false, yet the
measured width still includes the ellipsis footprint and exceeds the
rectangle. -/
theorem narrow_rect_exhausts_the_string (t : TextureText) (position : Rect)
    (hx : ∀ str, 0 ≤ (t.font.xftfont.extents str).xOff)
    (ho : t.shadow = true → 0 ≤ t.offset)
    (hem : t.font.elipses_length + (if t.shadow then t.offset else 0) > position.width)
    (hm : (t.font.xftfont.extents t.string).xOff + (if t.shadow then t.offset else 0)
      > position.width) :
    fitCount t position = g_utf8_strlen t.string ∧
      (fitStage t position).l = 0 ∧
      ((∀ b ∈ t.string, b < 0x80) → (fitStage t position).text = []) ∧
      (∀ j, (fitAfter t position (j + 1)).shortened = false ∧
        (fitAfter t position (j + 1)).m
          = (t.font.xftfont.extents (fitAfter t position (j + 1)).text).xOff
            + (if t.shadow then t.offset else 0)
            + (t.font.elipses_length + (if t.shadow then t.offset else 0)) ∧
        (fitAfter t position (j + 1)).m > position.width) ∧
      font_draw t position = [] := by
  have hl0 : (fitStage t position).l = 0 :=
    fitLoop_exhausts t position.width hx ho hem _ _ _ _ hm
  have hcount : fitCount t position = g_utf8_strlen t.string := by
    have h1 := fitStage_l t position
    have h2 := fitCount_le t position
    omega
  have hoff : 0 ≤ (if t.shadow then t.offset else 0) := by
    split
    · next hs => exact ho hs
    · exact le_refl _
  refine ⟨hcount, hl0, ?_, ?_, ?_⟩
  · intro hascii
    have hL := g_utf8_strlen_single_byte t.string hascii
    have hlen := fitAfter_length t position (fitCount t position) (fitCount_le t position)
    apply List.eq_nil_of_length_eq_zero
    rw [fitStage_eq_fitAfter]
    omega
  · intro j
    have hmj := fitAfter_m t position j
    refine ⟨?_, hmj, ?_⟩
    · rw [fitAfter_succ]
      show (if ELIPSES_LENGTH t.font t.shadow t.offset > position.width then false else true)
        = false
      exact if_pos hem
    · have := hx (fitAfter t position (j + 1)).text
      rw [hmj]
      omega
  · have hs : (fitStage t position).shortened = false :=
      fitLoop_not_shortened t position.width hem _ _ _
    apply font_draw_of_zero
    simp [elipsesStage, hs, hl0]

/-- The hypotheses of `narrow_rect_exhausts_the_string` hold for "HELLO WORLD"
with 10px per character, a 60px ellipsis and a 50px rectangle: eleven
iterations and no call. -/
theorem narrow_rect_exhausts_the_string_witness :
    fitCount (plainText (fixedFont 60) (ascii "HELLO WORLD")) (rectOfWidth 50) = 11 ∧
      font_draw (plainText (fixedFont 60) (ascii "HELLO WORLD")) (rectOfWidth 50) = [] :=
  (fun h => ⟨h.1, h.2.2.2.2⟩)
    (narrow_rect_exhausts_the_string (plainText (fixedFont 60) (ascii "HELLO WORLD"))
      (rectOfWidth 50)
      (fun str => List.sum_nonneg (by
        intro x hx
        obtain ⟨_, _, rfl⟩ := List.mem_map.mp hx
        decide))
      (by decide) (by decide) (by decide))

/-- The exit of the loop in terms of its counter, for any string: for a string
of `L` characters that does not fit, the loop stops at the first text that
passes its test: with `l` the counter at the exit and
`text_k` the working text after `L - k` removals, `l ≤ L`, the final text is
`text_l`; when `l ≥ 1`, `l < L` and `xOff(text_l) + shadow + (elipses_length +
shadow) ≤ width`; and for every `k` with `l < k < L` that sum for `text_k`
exceeds the width.  The shadow offset appears twice in the sum. -/
theorem loop_stops_at_first_fit (t : TextureText) (position : Rect)
    (hm : (t.font.xftfont.extents t.string).xOff + (if t.shadow then t.offset else 0)
      > position.width) :
    (fitStage t position).l ≤ g_utf8_strlen t.string ∧
      fitStage t position
        = fitAfter t position (g_utf8_strlen t.string - (fitStage t position).l) ∧
      (1 ≤ (fitStage t position).l →
        (fitStage t position).l < g_utf8_strlen t.string ∧
        (t.font.xftfont.extents (fitStage t position).text).xOff
            + (if t.shadow then t.offset else 0)
            + (t.font.elipses_length + (if t.shadow then t.offset else 0))
          ≤ position.width) ∧
      (∀ k, (fitStage t position).l < k → k < g_utf8_strlen t.string →
        (t.font.xftfont.extents
            (fitAfter t position (g_utf8_strlen t.string - k)).text).xOff
            + (if t.shadow then t.offset else 0)
            + (t.font.elipses_length + (if t.shadow then t.offset else 0))
          > position.width) := by
  have hl := fitStage_l t position
  have hn := fitCount_le t position
  have hidx : g_utf8_strlen t.string - (fitStage t position).l = fitCount t position := by
    omega
  refine ⟨by omega, by rw [hidx]; exact fitStage_eq_fitAfter t position, ?_, ?_⟩
  · intro h1
    have hexit := (fitGuard_eq_false_iff _ _).mp (fitGuard_at_exit t position)
    rw [← fitStage_eq_fitAfter] at hexit
    have hfit : (fitStage t position).m ≤ position.width := by
      rcases hexit with h0 | h
      · omega
      · exact h
    have hpos : 0 < fitCount t position := by
      by_contra hzero
      have hz : fitCount t position = 0 := by omega
      have hg := fitGuard_at_exit t position
      rw [hz, fitAfter_zero] at hg
      rcases (fitGuard_eq_false_iff _ _).mp hg with h0 | h
      · have : g_utf8_strlen t.string = 0 := h0
        omega
      · exact absurd hm (not_lt.mpr h)
    obtain ⟨j, hj⟩ : ∃ j, fitCount t position = j + 1 := ⟨fitCount t position - 1, by omega⟩
    refine ⟨by omega, ?_⟩
    have hmj := fitAfter_m t position j
    rw [← hj, ← fitStage_eq_fitAfter] at hmj
    rw [← hmj]
    exact hfit
  · intro k hk1 hk2
    obtain ⟨j, hj⟩ : ∃ j, g_utf8_strlen t.string - k = j + 1 :=
      ⟨g_utf8_strlen t.string - k - 1, by omega⟩
    have hg := (fitGuard_eq_true_iff _ _).mp
      (fitGuard_before t position (j + 1) (by omega))
    have hmj := fitAfter_m t position j
    rw [hj, ← hmj]
    exact hg.2

/-- The hypothesis of `loop_stops_at_first_fit` holds for "HELLO WORLD" with
10px per character, a 20px ellipsis and a 50px rectangle: the counter ends at
three, below eleven. -/
theorem loop_stops_at_first_fit_witness :
    (fitStage (plainText (fixedFont 20) (ascii "HELLO WORLD")) (rectOfWidth 50)).l = 3 ∧
      (fitStage (plainText (fixedFont 20) (ascii "HELLO WORLD")) (rectOfWidth 50)).l
        < g_utf8_strlen (plainText (fixedFont 20) (ascii "HELLO WORLD")).string :=
  ⟨by decide,
    ((loop_stops_at_first_fit (plainText (fixedFont 20) (ascii "HELLO WORLD"))
      (rectOfWidth 50) (by decide)).2.2.1 (by decide)).1⟩

/-- On a string of `L` single-byte characters that does not fit, the number
`n` of characters left after the loop is the largest `n < L` whose text passes
the test of the loop, and 0 when no `n ≥ 1` does: the final text is the text
after `L - n` removals; when `n ≥ 1`, `n < L` and the sum for the final text is
within the width; and for every `k` with `n < k < L` the text after `L - k`
removals has `k` characters and its sum exceeds the width. -/
theorem single_byte_loop_stops_at_first_fit (t : TextureText) (position : Rect)
    (hascii : ∀ b ∈ t.string, b < 0x80)
    (hm : (t.font.xftfont.extents t.string).xOff + (if t.shadow then t.offset else 0)
      > position.width) :
    g_utf8_strlen (fitStage t position).text ≤ g_utf8_strlen t.string ∧
      fitStage t position
        = fitAfter t position
            (g_utf8_strlen t.string - g_utf8_strlen (fitStage t position).text) ∧
      (1 ≤ g_utf8_strlen (fitStage t position).text →
        g_utf8_strlen (fitStage t position).text < g_utf8_strlen t.string ∧
        (t.font.xftfont.extents (fitStage t position).text).xOff
            + (if t.shadow then t.offset else 0)
            + (t.font.elipses_length + (if t.shadow then t.offset else 0))
          ≤ position.width) ∧
      (∀ k, g_utf8_strlen (fitStage t position).text < k → k < g_utf8_strlen t.string →
        g_utf8_strlen (fitAfter t position (g_utf8_strlen t.string - k)).text = k ∧
        (t.font.xftfont.extents
            (fitAfter t position (g_utf8_strlen t.string - k)).text).xOff
            + (if t.shadow then t.offset else 0)
            + (t.font.elipses_length + (if t.shadow then t.offset else 0))
          > position.width) := by
  obtain ⟨hcount, _⟩ := fitStage_strlen_single_byte t position hascii
  obtain ⟨h1, h2, h3, h4⟩ := loop_stops_at_first_fit t position hm
  rw [hcount]
  refine ⟨h1, h2, h3, ?_⟩
  intro k hk1 hk2
  refine ⟨?_, h4 k hk1 hk2⟩
  rw [(fitAfter_strlen_single_byte t position hascii _ (by omega)).1, fitAfter_l]
  omega

/-- The hypotheses of `single_byte_loop_stops_at_first_fit` hold for "HELLO
WORLD" with 10px per character, a 20px ellipsis and a 50px rectangle: three
characters are left. -/
theorem single_byte_loop_stops_at_first_fit_hello :
    g_utf8_strlen
        (fitStage (plainText (fixedFont 20) (ascii "HELLO WORLD")) (rectOfWidth 50)).text
      < g_utf8_strlen (plainText (fixedFont 20) (ascii "HELLO WORLD")).string :=
  ((single_byte_loop_stops_at_first_fit (plainText (fixedFont 20) (ascii "HELLO WORLD"))
    (rectOfWidth 50) (by decide) (by decide)).2.2.1 (by decide)).1

/-- C16: for "aéé" (three characters, five bytes) with a shadow offset of 1 in
a 25px rectangle, under a measurer of non-negative advances (10px a character,
20px a full stop, ellipsis 60px): the string does not fit (31 > 25) and the
ellipsis footprint exceeds the rectangle (61 > 25); the loop makes three
iterations and ends with `l = 0`, but it has erased three bytes, not three
characters: the two bytes of "é" are still in the text, one character by
`g_utf8_strlen`.  `font_draw` makes no call. -/
theorem multibyte_exhausted_loop_leaves_a_character :
    (∀ b, 0 ≤ wideDotAdvance b) ∧ 0 ≤ accentedWideDotText.offset ∧
      wideDotFont.elipses_length = (wideDotFont.xftfont.extents ELIPSES).xOff ∧
      accentedWideDotText.font.elipses_length
          + (if accentedWideDotText.shadow then accentedWideDotText.offset else 0)
        > (rectOfWidth 25).width ∧
      (accentedWideDotText.font.xftfont.extents accentedWideDotText.string).xOff
          + (if accentedWideDotText.shadow then accentedWideDotText.offset else 0)
        > (rectOfWidth 25).width ∧
      g_utf8_strlen accentedWideDotText.string = 3 ∧
      fitCount accentedWideDotText (rectOfWidth 25) = 3 ∧
      (fitStage accentedWideDotText (rectOfWidth 25)).l = 0 ∧
      (fitStage accentedWideDotText (rectOfWidth 25)).text = [0xC3, 0xA9] ∧
      utf8_chars (fitStage accentedWideDotText (rectOfWidth 25)).text = [[0xC3, 0xA9]] ∧
      g_utf8_strlen (fitStage accentedWideDotText (rectOfWidth 25)).text = 1 ∧
      font_draw accentedWideDotText (rectOfWidth 25) = [] := by
  refine ⟨?_, by decide, by decide, by decide, by decide, by decide, by decide, by decide,
    by decide, by decide, by decide, by decide⟩
  intro b
  unfold wideDotAdvance
  split
  · exact le_refl _
  · split <;> decide

/-- C17: for "aéé" (`L = 3` characters, five bytes) with a shadow offset of 1
and a 3px ellipsis in a 4px rectangle the string does not fit, and neither does
the text after two removals (`k = 1`) or after one (`k = 2`), so by the claim
no character is left; the counter `l` does end at 0, but the text still holds
the two bytes of "é", one character.  In a 25px rectangle the loop stops after one
removal with `l = 2`, while `g_utf8_strlen` counts 3 characters in the text, as
many as in the string. -/
theorem multibyte_counter_is_not_characters_left :
    g_utf8_strlen accentedText.string = 3 ∧
      (accentedText.font.xftfont.extents accentedText.string).xOff
          + (if accentedText.shadow then accentedText.offset else 0)
        > (rectOfWidth 4).width ∧
      (∀ k, 1 ≤ k → k < 3 →
        (accentedText.font.xftfont.extents
            (fitAfter accentedText (rectOfWidth 4) (3 - k)).text).xOff
            + (if accentedText.shadow then accentedText.offset else 0)
            + (accentedText.font.elipses_length
              + (if accentedText.shadow then accentedText.offset else 0))
          > (rectOfWidth 4).width) ∧
      (fitStage accentedText (rectOfWidth 4)).l = 0 ∧
      (fitStage accentedText (rectOfWidth 4)).text = [0xC3, 0xA9] ∧
      utf8_chars (fitStage accentedText (rectOfWidth 4)).text = [[0xC3, 0xA9]] ∧
      g_utf8_strlen (fitStage accentedText (rectOfWidth 4)).text = 1 ∧
      (fitStage accentedText (rectOfWidth 25)).l = 2 ∧
      (fitStage accentedText (rectOfWidth 25)).text = [0x61, 0xA9, 0xC3, 0xA9] ∧
      g_utf8_strlen (fitStage accentedText (rectOfWidth 25)).text = 3 := by
  refine ⟨by decide, by decide, ?_, by decide, by decide, by decide, by decide, by decide,
    by decide, by decide⟩
  intro k h1 h3
  interval_cases k <;> decide

/-- C18, as stated, fails: a right-justified "A" (10px) with a shadow offset
of -20 in a 50px rectangle fits with `m = -10`, its character survives and it
is drawn, and the text call is at `x = 60`, beyond `rect.x + rectWidth = 50`. -/
theorem negative_width_starts_right_of_rect :
    (fitStage negativeShadowText (rectOfWidth 50)).l = 1 ∧
      (fitStage negativeShadowText (rectOfWidth 50)).m = -10 ∧
      (fitStage negativeShadowText (rectOfWidth 50)).m ≤ (rectOfWidth 50).width ∧
      (font_draw negativeShadowText (rectOfWidth 50)).map (fun d => d.x) = [40, 60] ∧
      ¬ ((60 : Int) ≤ (rectOfWidth 50).x + (rectOfWidth 50).width) := by
  decide

/-- The layout when the counter `l` is at least 1 at the exit of the loop, for
any string: `font_draw` draws, the final measured width `m` is at most the
rectangle width, so `rectWidth - m ≥ 0`, and the origin `x` of the text call
satisfies `rect.x ≤ x` for the three justifications; `x ≤ rect.x + rectWidth`
holds when `m ≥ 0`, which is the case when the extents, the ellipsis advance
and the shadow offset are not negative. -/
theorem surviving_text_starts_inside_rect (t : TextureText) (position : Rect)
    (hl : 1 ≤ (fitStage t position).l) :
    font_draw t position ≠ [] ∧
      (fitStage t position).m ≤ position.width ∧
      0 ≤ position.width - (fitStage t position).m ∧
      (∀ d, (font_draw t position).getLast? = some d →
        d.x = originX t position (fitStage t position).m) ∧
      position.x ≤ originX t position (fitStage t position).m ∧
      (0 ≤ (fitStage t position).m →
        originX t position (fitStage t position).m ≤ position.x + position.width) ∧
      ((∀ str, 0 ≤ (t.font.xftfont.extents str).xOff) → (t.shadow = true → 0 ≤ t.offset) →
        0 ≤ t.font.elipses_length → 0 ≤ (fitStage t position).m) := by
  have hfit : (fitStage t position).m ≤ position.width := by
    rcases fitLoop_exit t position.width (g_utf8_strlen t.string) t.string
        (font_measure_string t.font t.string t.shadow t.offset) false with h0 | h
    · have : (fitStage t position).l = 0 := h0
      omega
    · exact h
  have hdraw : (elipsesStage t position).l ≠ 0 := by
    unfold elipsesStage
    simp only
    split
    · simp
    · omega
  have hdiv0 : 0 ≤ Int.tdiv (position.width - (fitStage t position).m) 2 := by
    rw [Int.tdiv_eq_ediv (by omega) (by decide)]
    omega
  refine ⟨(font_draw_ne_nil_iff t position).mpr hdraw, hfit, by omega, ?_, ?_, ?_, ?_⟩
  · intro d hd
    rw [font_draw_getLast t position d hd, elipsesStage_m]
    rfl
  · unfold originX
    split <;> omega
  · intro hm0
    have hdiv1 : Int.tdiv (position.width - (fitStage t position).m) 2 ≤ position.width := by
      rw [Int.tdiv_eq_ediv (by omega) (by decide)]
      omega
    unfold originX
    split <;> omega
  · intro hx ho hel
    have hoff : 0 ≤ (if t.shadow then t.offset else 0) := by
      split
      · next hs => exact ho hs
      · exact le_refl _
    rw [fitStage_eq_fitAfter]
    cases hc : fitCount t position with
    | zero =>
      have := hx t.string
      show 0 ≤ font_measure_string t.font t.string t.shadow t.offset
      unfold font_measure_string
      omega
    | succ j =>
      have := hx (fitAfter t position (j + 1)).text
      rw [fitAfter_m]
      omega

/-- The hypothesis of `surviving_text_starts_inside_rect` holds for "HELLO
WORLD" with 10px per character, a 20px ellipsis and a 50px rectangle:
`m = 50 ≤ 50`. -/
theorem surviving_text_starts_inside_rect_witness :
    (fitStage (plainText (fixedFont 20) (ascii "HELLO WORLD")) (rectOfWidth 50)).m
      ≤ (rectOfWidth 50).width :=
  (surviving_text_starts_inside_rect (plainText (fixedFont 20) (ascii "HELLO WORLD"))
    (rectOfWidth 50) (by decide)).2.1

/-- C18, amended: for a request on a string of single-byte characters in which
at least one character of the string survives the loop (the text at its exit
has a character), `font_draw` draws, the final measured width `m` is at most
the rectangle width, so `rectWidth - m ≥ 0`, and the origin `x` of the text
call satisfies `rect.x ≤ x` for the three justifications; `x ≤ rect.x +
rectWidth` holds when `m ≥ 0`, which is the case when the extents, the ellipsis
advance and the shadow offset are not negative. -/
theorem single_byte_survivor_starts_inside_rect (t : TextureText) (position : Rect)
    (hascii : ∀ b ∈ t.string, b < 0x80)
    (hsurv : 1 ≤ g_utf8_strlen (fitStage t position).text) :
    font_draw t position ≠ [] ∧
      (fitStage t position).m ≤ position.width ∧
      0 ≤ position.width - (fitStage t position).m ∧
      (∀ d, (font_draw t position).getLast? = some d →
        d.x = originX t position (fitStage t position).m) ∧
      (t.justify = Justify.Justify_Left →
        originX t position (fitStage t position).m = position.x) ∧
      (t.justify = Justify.Justify_Right →
        originX t position (fitStage t position).m
          = position.x + (position.width - (fitStage t position).m)) ∧
      (t.justify = Justify.Justify_Center →
        originX t position (fitStage t position).m
          = position.x + Int.tdiv (position.width - (fitStage t position).m) 2) ∧
      position.x ≤ originX t position (fitStage t position).m ∧
      (0 ≤ (fitStage t position).m →
        originX t position (fitStage t position).m ≤ position.x + position.width) ∧
      ((∀ str, 0 ≤ (t.font.xftfont.extents str).xOff) → (t.shadow = true → 0 ≤ t.offset) →
        0 ≤ t.font.elipses_length → 0 ≤ (fitStage t position).m) := by
  have hl : 1 ≤ (fitStage t position).l := by
    rw [← (fitStage_strlen_single_byte t position hascii).1]
    exact hsurv
  obtain ⟨h1, h2, h3, h4, h5, h6, h7⟩ := surviving_text_starts_inside_rect t position hl
  refine ⟨h1, h2, h3, h4, ?_, ?_, ?_, h5, h6, h7⟩
  · intro hj; simp [originX, hj]
  · intro hj; simp [originX, hj]
  · intro hj; simp [originX, hj]

/-- C18, amended, at "HELLO WORLD" with 10px per character, a 20px ellipsis
and a 50px rectangle: three characters survive, `m = 50 ≤ 50` and the text call
is at `x = rect.x`. -/
theorem single_byte_survivor_starts_inside_rect_witness :
    g_utf8_strlen
        (fitStage (plainText (fixedFont 20) (ascii "HELLO WORLD")) (rectOfWidth 50)).text = 3 ∧
      (fitStage (plainText (fixedFont 20) (ascii "HELLO WORLD")) (rectOfWidth 50)).m
        ≤ (rectOfWidth 50).width ∧
      (rectOfWidth 50).x
        ≤ originX (plainText (fixedFont 20) (ascii "HELLO WORLD")) (rectOfWidth 50)
          (fitStage (plainText (fixedFont 20) (ascii "HELLO WORLD")) (rectOfWidth 50)).m :=
  ⟨by decide,
    (single_byte_survivor_starts_inside_rect
      (plainText (fixedFont 20) (ascii "HELLO WORLD")) (rectOfWidth 50)
      (by decide) (by decide)).2.1,
    (single_byte_survivor_starts_inside_rect
      (plainText (fixedFont 20) (ascii "HELLO WORLD")) (rectOfWidth 50)
      (by decide) (by decide)).2.2.2.2.2.2.2.1⟩

/-- The layout on the multi-byte string "aéé", right-justified with a shadow
offset of 1 in a 4px rectangle: the loop erases three bytes, the character "é"
is left with `l = 0`, "...é" is drawn with `m = 15`, and the text call is at
`x = -11`, left of the rectangle. -/
theorem multibyte_survivor_starts_left_of_rect :
    (fitStage (accentedIn codepointFont Justify.Justify_Right 50
        { r := 255, g := 255, b := 255, pixel := 0 }) (rectOfWidth 4)).l = 0 ∧
      (fitStage (accentedIn codepointFont Justify.Justify_Right 50
        { r := 255, g := 255, b := 255, pixel := 0 }) (rectOfWidth 4)).text = [0xC3, 0xA9] ∧
      (fitStage (accentedIn codepointFont Justify.Justify_Right 50
        { r := 255, g := 255, b := 255, pixel := 0 }) (rectOfWidth 4)).m = 15 ∧
      (font_draw (accentedIn codepointFont Justify.Justify_Right 50
        { r := 255, g := 255, b := 255, pixel := 0 }) (rectOfWidth 4)).map
          (fun d => (d.x, d.text)) =
        [(-10, [46, 46, 46, 0xC3, 0xA9]), (-11, [46, 46, 46, 0xC3, 0xA9])] := by
  decide

/-- C19: the loop of `font_draw` terminates for every request and every
measurer: run as a `while` with a bound on its iterations it ends, for every
bound of at least `L = g_utf8_strlen string`, in the state `fitStage`; it makes
`fitCount ≤ L` iterations (one erase and one measure each), every iteration
from a non-zero `l` decrements `l` by one, the condition holds before each
iteration and fails after the last, and `l` ends at `L - fitCount`. -/
theorem fit_loop_terminates (t : TextureText) (position : Rect) :
    (∀ fuel, g_utf8_strlen t.string ≤ fuel →
        fitWhile t position.width fuel (fitInit t) = some (fitStage t position)) ∧
      fitCount t position ≤ g_utf8_strlen t.string ∧
      fitStage t position = fitAfter t position (fitCount t position) ∧
      (∀ j, j < fitCount t position →
        fitGuard position.width (fitAfter t position j) = true) ∧
      fitGuard position.width (fitStage t position) = false ∧
      (∀ s : FitState, s.l ≠ 0 → (fitBody t position.width s).l + 1 = s.l) ∧
      (∀ j, (fitAfter t position j).l = g_utf8_strlen t.string - j) ∧
      (fitStage t position).l + fitCount t position = g_utf8_strlen t.string := by
  refine ⟨?_, fitCount_le t position, fitStage_eq_fitAfter t position,
    fun j hj => fitGuard_before t position j hj, ?_, ?_, fitAfter_l t position, ?_⟩
  · intro fuel hfuel
    exact fitWhile_eq_fitLoop t position.width fuel (fitInit t) hfuel
  · rw [fitStage_eq_fitAfter]
    exact fitGuard_at_exit t position
  · intro s hs
    show s.l - 1 + 1 = s.l
    omega
  · have := fitStage_l t position
    have := fitCount_le t position
    omega

/-- C19 at "HELLO WORLD" with 10px per character, a 20px ellipsis and a 50px
rectangle: eight iterations, within a bound of eleven. -/
theorem fit_loop_terminates_witness :
    fitCount (plainText (fixedFont 20) (ascii "HELLO WORLD")) (rectOfWidth 50) = 8 ∧
      fitWhile (plainText (fixedFont 20) (ascii "HELLO WORLD")) (rectOfWidth 50).width 11
          (fitInit (plainText (fixedFont 20) (ascii "HELLO WORLD")))
        = some (fitStage (plainText (fixedFont 20) (ascii "HELLO WORLD")) (rectOfWidth 50)) :=
  ⟨by decide,
    (fit_loop_terminates (plainText (fixedFont 20) (ascii "HELLO WORLD"))
      (rectOfWidth 50)).1 11 (by decide)⟩

/-- C20: every string edit of `font_draw` is in bounds.  The string has at
most as many characters as bytes; through the iterations the byte length of the
text exceeds `l` by the same amount, the excess of the bytes of the string over
its characters; so at each iteration the loop makes the erase position `l / 2`
is below the byte length and one byte is erased there; and at the exit the
insertion position `(l + 1) / 2` is at most the byte length. -/
theorem string_edits_in_bounds (t : TextureText) (position : Rect) :
    g_utf8_strlen t.string ≤ t.string.length ∧
      (∀ j, j ≤ fitCount t position →
        (fitAfter t position j).text.length
          = (fitAfter t position j).l + (t.string.length - g_utf8_strlen t.string)) ∧
      (∀ j, j < fitCount t position →
        (fitAfter t position j).l / 2 < (fitAfter t position j).text.length ∧
        (fitAfter t position (j + 1)).text
          = (fitAfter t position j).text.take ((fitAfter t position j).l / 2)
            ++ (fitAfter t position j).text.drop ((fitAfter t position j).l / 2 + 1) ∧
        (fitAfter t position (j + 1)).text.length + 1
          = (fitAfter t position j).text.length) ∧
      ((fitStage t position).l + 1) / 2 ≤ (fitStage t position).text.length := by
  have hle := g_utf8_strlen_le_length t.string
  have hn := fitCount_le t position
  refine ⟨hle, ?_, ?_, ?_⟩
  · intro j hj
    have h1 := fitAfter_length t position j (by omega)
    have h2 := fitAfter_l t position j
    omega
  · intro j hj
    have hin := fitAfter_erase_in_range t position j (by omega)
    have h1 := fitAfter_length t position j (by omega)
    have h2 := fitAfter_length t position (j + 1) (by omega)
    refine ⟨hin, ?_, by omega⟩
    rw [fitAfter_succ]
    show g_string_erase (fitAfter t position j).text ((fitAfter t position j).l / 2) 1 = _
    unfold g_string_erase
    rw [if_pos (by omega)]
  · have := fitStage_l_le_length t position
    omega

/-- C20 at "aéé" in a 4px rectangle: three characters in five bytes, and the
text keeps two bytes more than `l`. -/
theorem string_edits_in_bounds_witness :
    fitCount accentedText (rectOfWidth 4) = 3 ∧
      (fitAfter accentedText (rectOfWidth 4) 3).text.length
        = (fitAfter accentedText (rectOfWidth 4) 3).l + (5 - 3) :=
  ⟨by decide, (string_edits_in_bounds accentedText (rectOfWidth 4)).2.1 3 (by decide)⟩

end Font
